import Mathlib

/-! Verification of the `useElmish` dispatch loop of the react-elm
repository.

Shallow embedding of `src/useElmish.ts`: the reentrant message-dispatch
loop (`dispatch`), command execution (`execCmd`), update-logic resolution
(`callUpdate` / `callUpdateMap`), and the component lifecycle wiring
(`useElmish` with `useState` / `useCallback` / `useEffect`).

Modelling decisions (documented once, used throughout):

* A model is a JavaScript object; we embed it as an association list of
  (property name, value) pairs `PModel`.  `{...a, ...b}` is `mergeProps a b`
  (properties of `b` override those of `a`); `Object.getOwnPropertyNames(m).length > 0`
  is `m ≠ []`.  Property enumeration order beyond this is not relied upon.
* Reference identity (`!==`) matters in exactly one place of the source,
  `modelHasChanged`, which compares the object returned by update logic
  against the closure variable `initializedModel`.  The objects an update
  function can return are: a freshly created object, the working-model
  object `{...initializedModel, ...currentModel}` it received (a fresh
  spread, hence never reference-equal to `initializedModel`), or the
  initialized model object itself (which application code may have captured
  from `init`).  The inductive `RetModel` embeds this choice.
* An effect function `call(dispatch)` of a command list is embedded by the
  list of messages it passes to `dispatch` synchronously, in order, together
  with an optional error it throws afterwards (`EffFn`).  Statements a real
  effect makes after throwing never execute, so this is exhaustive for the
  synchronous behaviours.
* An update function may itself call `dispatch` reentrantly (the dispatcher
  is in scope in the component); `UpdRun.dispatched` lists those calls, and
  `UpdRun.out` is the returned `[Partial<TModel>, Cmd?]` pair or the thrown
  error (`Except`).
* The interpreter is fuel-based (`Option`-valued, `none` = fuel exhausted):
  a reentrant effect can enqueue messages forever, so the source loop need
  not terminate.  All theorems are stated for runs that return `some`.
* The interpreter emits a trace of `Event`s: semantic markers
  (message buffered, update logic invoked, accumulator merged, effect
  invoked, host state written) are always emitted; logger calls
  (`LoggerService?.info/debug/error`) are emitted only when a logger is
  configured, and the middleware event only when `dispatchMiddleware` is set,
  mirroring the optional-chaining in the source.
-/

/-- A message: `MessageBase` has a `name: string` discriminator; the payload
is opaque, embedded as a `Nat`. -/
structure Msg where
  name : String
  payload : Nat
deriving DecidableEq, Repr

/-- Properties of a JavaScript object (a full or partial model):
an association list of property name / value pairs.  Values are opaque,
embedded as `Nat`. -/
abbrev PModel := List (String × Nat)

/-- Props passed to the component; opaque for the dispatch loop. -/
abbrev Props := Nat

/-- First-match property lookup on an object. -/
def getProp (m : PModel) (k : String) : Option Nat :=
  (m.find? (fun p => p.1 = k)).map (fun p => p.2)

/-- Spread merge `{...a, ...b}`: properties of `a` in order, with values overridden by
`b` where present, followed by the properties of `b` not present in `a`. -/
def mergeProps (a b : PModel) : PModel :=
  a.map (fun p => match getProp b p.1 with
    | some v => (p.1, v)
    | none => p)
  ++ b.filter (fun q => ¬ a.any (fun p => p.1 = q.1))

/-- A thrown JavaScript error: either a value thrown by application code, or
the `TypeError` raised by calling `undefined` (a missing handler-map entry). -/
inductive ErrV where
  | thrown : Nat → ErrV
  | typeErrNotAFunction : ErrV
deriving DecidableEq, Repr

/-- One effect function of a command list (`call` in `execCmd`): embedded by
the messages it passes to `dispatch` synchronously, in order, and an
optional error it throws after those calls. -/
structure EffFn where
  calls : List Msg
  throws : Option ErrV
deriving DecidableEq, Repr

/-- Embeds `Cmd<TMessage>`: an ordered list of effect functions. -/
abbrev Cmd := List EffFn

/-- The object returned by update logic, as far as reference identity and
own properties are concerned:
* `fresh props` — a newly created object with the given own properties;
* `sameAsInput` — the working-model object `{...initializedModel, ...currentModel}`
  that was passed to the update call (a fresh spread object);
* `sameAsInit` — the very object `init` returned, i.e. the closure variable
  `initializedModel` (application code may have kept that reference). -/
inductive RetModel where
  | fresh : PModel → RetModel
  | sameAsInput : RetModel
  | sameAsInit : RetModel
deriving DecidableEq, Repr

/-- Embeds `UpdateReturnType<TModel, TMessage>`: the pair `[Partial<TModel>, Cmd?]`. -/
structure UpdOut where
  ret : RetModel
  cmd : Option Cmd
deriving DecidableEq, Repr

deriving instance DecidableEq for Except

/-- The observable run of one update-logic invocation: the messages it
passes to `dispatch` during its execution (in order), and either the
returned `[Partial<TModel>, Cmd?]` or the error it throws. -/
structure UpdRun where
  dispatched : List Msg
  out : Except ErrV UpdOut
deriving DecidableEq

/-- Embeds `UpdateFunction<TProps, TModel, TMessage>`: called as `update(model, msg, props)`. -/
def UpdateFunction := PModel → Msg → Props → UpdRun

/-- Embeds `UpdateMap<TProps, TModel, TMessage>`: handlers keyed by message name,
each called as `handler(msg, model, props)`. -/
def UpdateMap := List (String × (Msg → PModel → Props → UpdRun))

/-- Looks a handler up by message name (`updateMap[msg.name]`). -/
def lookupHandler (um : UpdateMap) (name : String) : Option (Msg → PModel → Props → UpdRun) :=
  (um.find? (fun p => p.1 = name)).map (fun p => p.2)

/-- The `update` option of `useElmish`: an update function or an update map. -/
inductive UpdateArg where
  | fn : UpdateFunction → UpdateArg
  | map : UpdateMap → UpdateArg

/-- Embeds `callUpdateMap` (useElmish.ts lines 132-136): looks the handler up by
`msg.name` and invokes it.  When the name is absent the source invokes
`undefined`, which throws a `TypeError` before any handler code runs. -/
def callUpdateMap (um : UpdateMap) (msg : Msg) (model : PModel) (props : Props) : UpdRun :=
  match lookupHandler um msg.name with
  | some h => h msg model props
  | none => ⟨[], Except.error ErrV.typeErrNotAFunction⟩

/-- Embeds `callUpdate` (useElmish.ts lines 124-130). -/
def callUpdate (u : UpdateArg) (msg : Msg) (model : PModel) (props : Props) : UpdRun :=
  match u with
  | UpdateArg.fn f => f model msg props
  | UpdateArg.map um => callUpdateMap um msg model props

/-- Embeds `modelHasChanged` (useElmish.ts line 48):
`updatedModel !== initializedModel && Object.getOwnPropertyNames(updatedModel).length > 0`.
A fresh object and the freshly-spread working model are never
reference-equal to `initializedModel`; `sameAsInit` is exactly it.
`workingProps` are the own properties of the working-model object. -/
def modelHasChanged (ret : RetModel) (workingProps : PModel) : Bool :=
  match ret with
  | RetModel.fresh p => !p.isEmpty
  | RetModel.sameAsInput => !workingProps.isEmpty
  | RetModel.sameAsInit => false

/-- Own properties of the object returned by update logic (used by the
merge `{...currentModel, ...newModel}`). -/
def retProps (ret : RetModel) (workingProps initProps : PModel) : PModel :=
  match ret with
  | RetModel.fresh p => p
  | RetModel.sameAsInput => workingProps
  | RetModel.sameAsInit => initProps

/-- Trace events emitted by the interpreter.  `evLog*` events are the
`LoggerService` calls; `evMiddleware` is the `dispatchMiddleware` call; the
remaining events are semantic markers of the corresponding source actions. -/
inductive Event where
  | evMiddleware : Msg → Event
  | evBuffered : Msg → Event
  | evUpdateCall : Msg → Event
  | evMerged : PModel → Event
  | evEffect : EffFn → Event
  | evHostWrite : PModel → Event
  | evLogInfo : Msg → Event
  | evLogDebug : Msg → Event
  | evLogError : ErrV → Event
  | evLogModelUpdated : PModel → Event
deriving DecidableEq, Repr

/-- Ambient configuration: whether `LoggerService` and `dispatchMiddleware`
are set (both are optional process-wide singletons). -/
structure Cfg where
  logger : Bool
  middleware : Bool
deriving DecidableEq, Repr

/-- The application-supplied pieces the dispatch loop closes over. -/
structure Prog where
  update : UpdateArg
  props : Props

/-- The mutable state the `useElmish` closures share:
`initializedModel` (the closure variable, fixed at first initialization and
never reassigned afterwards), the `useState` cell `host`, and the loop
variables `reentered`, `buffer`, `currentModel`. -/
structure St where
  initModel : Option PModel
  host : Option PModel
  reentered : Bool
  buffer : List Msg
  currentModel : PModel
deriving DecidableEq, Repr

/-- The working model `{...initializedModel, ...currentModel}` (line 67). -/
def working (st : St) : PModel :=
  mergeProps (st.initModel.getD []) st.currentModel

/-- Logger events, emitted only when a logger is configured
(`LoggerService?.`). -/
def logEvs (cfg : Cfg) (evs : List Event) : List Event :=
  if cfg.logger then evs else []

/-- The middleware call (`dispatchMiddleware(msg)` behind `if (dispatchMiddleware)`). -/
def mwEvs (cfg : Cfg) (m : Msg) : List Event :=
  if cfg.middleware then [Event.evMiddleware m] else []

/-- Events of one reentrant dispatch call: middleware, then `buffer.push(msg)`. -/
def enqEvs (cfg : Cfg) (m : Msg) : List Event :=
  mwEvs cfg m ++ [Event.evBuffered m]

/-- Events of a sequence of reentrant dispatch calls. -/
def enqTrace (cfg : Cfg) (msgs : List Msg) : List Event :=
  msgs.flatMap (enqEvs cfg)

/-- The `LoggerService?.error(ex)` call of a catch block. -/
def errEvs (cfg : Cfg) (e : ErrV) : List Event :=
  logEvs cfg [Event.evLogError e]

/-- The catch block of `execCmd` for one effect. -/
def effErrTrace (cfg : Cfg) (e : EffFn) : List Event :=
  match e.throws with
  | some ex => errEvs cfg ex
  | none => []

/-- The trace `execCmd` produces for a command list while a dispatch cycle is
running (each `dispatch` call inside an effect merely buffers). -/
def execTrace (cfg : Cfg) (effs : Cmd) : List Event :=
  effs.flatMap (fun e => Event.evEffect e :: (enqTrace cfg e.calls ++ effErrTrace cfg e))

mutual

/-- Embeds `dispatch` (useElmish.ts lines 43-96).  Fuel-indexed; `none` means the
fuel ran out (the source loop need not terminate). -/
def runDispatch (P : Prog) (cfg : Cfg) : Nat → Msg → St → Option (St × List Event)
  | 0, _, _ => none
  | fuel + 1, msg, st =>
    match st.initModel with
    | none => some (st, [])
    | some _ =>
      let mw := mwEvs cfg msg
      if st.reentered then
        some ({ st with buffer := st.buffer ++ [msg] }, mw ++ [Event.evBuffered msg])
      else
        match runLoop P cfg fuel msg false { st with reentered := true } with
        | none => none
        | some (st1, modified, trL) =>
          let st2 := { st1 with reentered := false }
          if modified then
            let newHost := mergeProps (st2.host.getD []) st2.currentModel
            some ({ st2 with host := some newHost },
              mw ++ trL ++ logEvs cfg [Event.evLogModelUpdated newHost]
                 ++ [Event.evHostWrite newHost])
          else
            some (st2, mw ++ trL)

/-- One iteration of the `while (nextMsg)` body (useElmish.ts lines 62-80):
logging, `callUpdate` (whose execution may reentrantly dispatch), the
`modelHasChanged` merge, `execCmd`, and the catch block.  Returns the state,
whether this message merged a model change, and the events. -/
def stepMsg (P : Prog) (cfg : Cfg) : Nat → Msg → St → Option (St × Bool × List Event)
  | 0, _, _ => none
  | fuel + 1, msg, st =>
    let lg := logEvs cfg [Event.evLogInfo msg, Event.evLogDebug msg]
    let r := callUpdate P.update msg (working st) P.props
    match runDispatchMany P cfg fuel r.dispatched st with
    | none => none
    | some (st1, trD) =>
      match r.out with
      | Except.error e =>
        some (st1, false, lg ++ [Event.evUpdateCall msg] ++ trD ++ errEvs cfg e)
      | Except.ok o =>
        let changed := modelHasChanged o.ret (working st)
        let merged := retProps o.ret (working st) (st.initModel.getD [])
        let st2 := if changed
          then { st1 with currentModel := mergeProps st1.currentModel merged }
          else st1
        let trM := if changed then [Event.evMerged merged] else []
        match o.cmd with
        | none =>
          some (st2, changed, lg ++ [Event.evUpdateCall msg] ++ trD ++ trM)
        | some c =>
          match runExecCmd P cfg fuel c st2 with
          | none => none
          | some (st3, trC) =>
            some (st3, changed, lg ++ [Event.evUpdateCall msg] ++ trD ++ trM ++ trC)

/-- The `while (nextMsg)` loop (useElmish.ts lines 62-83): process the
current message, then `nextMsg = buffer.shift()`.  The Boolean accumulates
`modified`. -/
def runLoop (P : Prog) (cfg : Cfg) : Nat → Msg → Bool → St → Option (St × Bool × List Event)
  | 0, _, _, _ => none
  | fuel + 1, msg, modified, st =>
    match stepMsg P cfg fuel msg st with
    | none => none
    | some (st1, merged, tr1) =>
      let modified' := modified || merged
      match st1.buffer with
      | [] => some (st1, modified', tr1)
      | m :: rest =>
        match runLoop P cfg fuel m modified' { st1 with buffer := rest } with
        | none => none
        | some (st2, mod2, tr2) => some (st2, mod2, tr1 ++ tr2)

/-- A sequence of `dispatch` calls made by application code
(an update function or an effect) while it runs. -/
def runDispatchMany (P : Prog) (cfg : Cfg) : Nat → List Msg → St → Option (St × List Event)
  | 0, _, _ => none
  | _ + 1, [], st => some (st, [])
  | fuel + 1, m :: rest, st =>
    match runDispatch P cfg fuel m st with
    | none => none
    | some (st1, tr1) =>
      match runDispatchMany P cfg fuel rest st1 with
      | none => none
      | some (st2, tr2) => some (st2, tr1 ++ tr2)

/-- Embeds `execCmd` (useElmish.ts lines 33-41): invoke each effect function in
order with the dispatcher, catching and logging an error thrown by an
effect and carrying on with the remaining effects. -/
def runExecCmd (P : Prog) (cfg : Cfg) : Nat → Cmd → St → Option (St × List Event)
  | 0, _, _ => none
  | _ + 1, [], st => some (st, [])
  | fuel + 1, e :: rest, st =>
    match runDispatchMany P cfg fuel e.calls st with
    | none => none
    | some (st1, trD) =>
      match runExecCmd P cfg fuel rest st1 with
      | none => none
      | some (st2, trR) =>
        some (st2, (Event.evEffect e :: (trD ++ effErrTrace cfg e)) ++ trR)

end

/-! ## The component lifecycle (`useElmish` body, `useState` / `useCallback` / `useEffect`)

The host framework contract the source relies on (spec section 6): the
`useState` cell is read at every render and written by `setModel`; the
`useCallback` closures are created on the first render and reused on every
later render (so `dispatch`, `execCmd` and the effect callback close over
the variables of the first render); the `useEffect` callback with empty
dependency list runs exactly once, after mount, and its returned destructor
runs once, at teardown. -/

/-- Embeds `Subscription<TModel, TMessage>`: `model → [Cmd, destructor?]`; the
destructor is embedded by whether it is present (`Bool`). -/
def Subscription := PModel → Cmd × Bool

/-- The options of `useElmish` that the lifecycle needs. -/
structure Component where
  prog : Prog
  init : Props → PModel × Option Cmd
  subscription : Option Subscription

/-- An operation performed on a mounted component: a re-render scheduled by
the host, or a call of the returned dispatcher. -/
inductive LifeOp where
  | rerender : LifeOp
  | dispatchOp : Msg → LifeOp

/-- Lifecycle-level trace events: the dispatch-loop events, the
subscription invocation (with the model it receives), and the run of its
destructor at teardown. -/
inductive LEvent where
  | core : Event → LEvent
  | subscribe : PModel → LEvent
  | cleanup : LEvent
deriving DecidableEq, Repr

/-- The first render (useElmish.ts lines 98-107): `init(props)` runs, the
closure variable `initializedModel` and the `useState` cell are set to the
initial model, and the initial commands execute (their effects may dispatch,
starting full cycles).  Returns the initial model, the state and the events. -/
def initialRender (C : Component) (cfg : Cfg) (fuel : Nat) :
    Option (PModel × St × List Event) :=
  let (im, initCmd) := C.init C.prog.props
  let st0 : St :=
    { initModel := some im, host := some im,
      reentered := false, buffer := [], currentModel := [] }
  match initCmd with
  | none => some (im, st0, [Event.evHostWrite im])
  | some c =>
    match runExecCmd C.prog cfg fuel c st0 with
    | none => none
    | some (st1, tr) => some (im, st1, Event.evHostWrite im :: tr)

/-- The operations performed while the component is mounted.  A re-render
re-runs the hook body: the model is already initialized and the memoized
closures are reused, so it neither changes the state nor emits events.  A
dispatcher call runs `dispatch`. -/
def runOps (C : Component) (cfg : Cfg) : Nat → List LifeOp → St → Option (St × List Event)
  | 0, _, _ => none
  | _ + 1, [], st => some (st, [])
  | fuel + 1, LifeOp.rerender :: rest, st => runOps C cfg fuel rest st
  | fuel + 1, LifeOp.dispatchOp m :: rest, st =>
    match runDispatch C.prog cfg fuel m st with
    | none => none
    | some (st1, tr1) =>
      match runOps C cfg fuel rest st1 with
      | none => none
      | some (st2, tr2) => some (st2, tr1 ++ tr2)

/-- A full component lifetime: first render, the post-mount effect
(useElmish.ts lines 109-119: the subscription runs once with the
initialized model and its commands execute), the mounted operations, and
teardown (the destructor returned by the effect, when present). -/
def runLifecycle (C : Component) (cfg : Cfg) (fuel : Nat) (ops : List LifeOp) :
    Option (St × List LEvent) :=
  match initialRender C cfg fuel with
  | none => none
  | some (im, st0, trI) =>
    match C.subscription with
    | none =>
      match runOps C cfg fuel ops st0 with
      | none => none
      | some (stF, trO) => some (stF, (trI ++ trO).map LEvent.core)
    | some s =>
      match runExecCmd C.prog cfg fuel (s im).1 st0 with
      | none => none
      | some (st1, trS) =>
        match runOps C cfg fuel ops st1 with
        | none => none
        | some (stF, trO) =>
          some (stF,
            trI.map LEvent.core
              ++ LEvent.subscribe im :: trS.map LEvent.core
              ++ trO.map LEvent.core
              ++ (if (s im).2 then [LEvent.cleanup] else []))

/-! ## Trace observations -/

/-- The messages for which the update logic was invoked, in order. -/
def procs (tr : List Event) : List Msg :=
  tr.filterMap (fun e => match e with | Event.evUpdateCall m => some m | _ => none)

/-- The messages appended to the reentrancy buffer, in order. -/
def bufs (tr : List Event) : List Msg :=
  tr.filterMap (fun e => match e with | Event.evBuffered m => some m | _ => none)

/-- The partial models merged into the accumulator, in order. -/
def merges (tr : List Event) : List PModel :=
  tr.filterMap (fun e => match e with | Event.evMerged p => some p | _ => none)

/-- The values written to the host state cell, in order. -/
def writes (tr : List Event) : List PModel :=
  tr.filterMap (fun e => match e with | Event.evHostWrite p => some p | _ => none)

/-- The effect functions invoked by command execution, in order. -/
def effRuns (tr : List Event) : List EffFn :=
  tr.filterMap (fun e => match e with | Event.evEffect f => some f | _ => none)

/-- The "model updated" debug log entries (`LoggerService?.debug("Elm", "update model for", ...)`). -/
def modelUpdatedLogs (tr : List Event) : List PModel :=
  tr.filterMap (fun e => match e with | Event.evLogModelUpdated p => some p | _ => none)

/-- Events that are calls of the optional logger. -/
def isLogEvent : Event → Bool
  | Event.evLogInfo _ => true
  | Event.evLogDebug _ => true
  | Event.evLogError _ => true
  | Event.evLogModelUpdated _ => true
  | _ => false

/-- The trace with the logger calls removed: the behaviour of a run. -/
def semTrace (tr : List Event) : List Event :=
  tr.filterMap (fun e => if isLogEvent e then none else some e)

/-- Projection of a dispatch result to its behaviour (state and non-log events). -/
def projST (p : St × List Event) : St × List Event :=
  (p.1, semTrace p.2)

/-- Projection of a step/loop result to its behaviour. -/
def projSBT (p : St × Bool × List Event) : St × Bool × List Event :=
  (p.1, p.2.1, semTrace p.2.2)

/-- Subscription invocations in a lifecycle trace. -/
def countSubscribe (tr : List LEvent) : Nat :=
  tr.countP (fun e => match e with | LEvent.subscribe _ => true | _ => false)

/-- Destructor runs in a lifecycle trace. -/
def countCleanup (tr : List LEvent) : Nat :=
  tr.countP (fun e => match e with | LEvent.cleanup => true | _ => false)

/-! ## Concrete instances (used to evaluate the theorems on explicit inputs) -/

/-- A first concrete message. -/
def msgA : Msg := ⟨"inc", 0⟩

/-- A second concrete message. -/
def msgB : Msg := ⟨"next", 1⟩

/-- A message whose name no handler map below covers. -/
def msgUnknown : Msg := ⟨"unknown", 0⟩

/-- An idle initialized component state with model `{a: 1}`. -/
def stIdle : St :=
  { initModel := some [("a", 1)], host := some [("a", 1)],
    reentered := false, buffer := [], currentModel := [] }

/-- A component state before the model has been initialized. -/
def stUninit : St :=
  { initModel := none, host := none, reentered := false, buffer := [], currentModel := [] }

/-- Logger and middleware both configured. -/
def cfgFull : Cfg := ⟨true, true⟩

/-- No logger, middleware configured. -/
def cfgNoLog : Cfg := ⟨false, true⟩

/-- An update function whose command for `inc` reentrantly dispatches `msgB`. -/
def updReent : UpdateFunction := fun _model msg _props =>
  if msg.name = "inc" then
    ⟨[], Except.ok ⟨RetModel.fresh [("n", 1)], some [⟨[msgB], none⟩]⟩⟩
  else
    ⟨[], Except.ok ⟨RetModel.fresh [("m", 2)], none⟩⟩

/-- Program with the reentrantly-dispatching update function. -/
def progReent : Prog := ⟨UpdateArg.fn updReent, 0⟩

/-- Program whose update always returns a fresh partial model `{c: 7}`. -/
def progFresh : Prog :=
  ⟨UpdateArg.fn (fun _ _ _ => ⟨[], Except.ok ⟨RetModel.fresh [("c", 7)], none⟩⟩), 0⟩

/-- Program whose update returns the working-model object it was given
(referentially identical to the current working model). -/
def progSameInput : Prog :=
  ⟨UpdateArg.fn (fun _ _ _ => ⟨[], Except.ok ⟨RetModel.sameAsInput, none⟩⟩), 0⟩

/-- Program whose update returns the initialized-model object itself. -/
def progSameInit : Prog :=
  ⟨UpdateArg.fn (fun _ _ _ => ⟨[], Except.ok ⟨RetModel.sameAsInit, none⟩⟩), 0⟩

/-- Update function that throws on `inc` and succeeds on anything else. -/
def updThrow : UpdateFunction := fun _ msg _ =>
  if msg.name = "inc" then ⟨[], Except.error (ErrV.thrown 3)⟩
  else ⟨[], Except.ok ⟨RetModel.fresh [("k", 5)], none⟩⟩

/-- Program with the throwing update function. -/
def progThrow : Prog := ⟨UpdateArg.fn updThrow, 0⟩

/-- A handler map with a single handler, for message name `known`. -/
def umKnown : UpdateMap :=
  [("known", fun _ _ _ => ⟨[], Except.ok ⟨RetModel.fresh [("z", 9)], none⟩⟩)]

/-- Program driven by the handler map `umKnown`. -/
def progMap : Prog := ⟨UpdateArg.map umKnown, 0⟩

/-- An effect that dispatches `msgB` and then throws. -/
def effThrow : EffFn := ⟨[msgB], some (ErrV.thrown 8)⟩

/-- An effect that does nothing. -/
def effPlain : EffFn := ⟨[], none⟩

/-- Result state of `runDispatch progReent cfgFull 10 msgA stIdle`. -/
def stReentRes : St :=
  { initModel := some [("a", 1)], host := some [("a", 1), ("n", 1), ("m", 2)],
    reentered := false, buffer := [], currentModel := [("n", 1), ("m", 2)] }

/-- Result trace of `runDispatch progReent cfgFull 10 msgA stIdle`. -/
def trReentRes : List Event :=
  [Event.evMiddleware msgA, Event.evLogInfo msgA, Event.evLogDebug msgA,
   Event.evUpdateCall msgA, Event.evMerged [("n", 1)],
   Event.evEffect ⟨[msgB], none⟩,
   Event.evMiddleware msgB, Event.evBuffered msgB,
   Event.evLogInfo msgB, Event.evLogDebug msgB,
   Event.evUpdateCall msgB, Event.evMerged [("m", 2)],
   Event.evLogModelUpdated [("a", 1), ("n", 1), ("m", 2)],
   Event.evHostWrite [("a", 1), ("n", 1), ("m", 2)]]

/-- Result state of `runDispatch progFresh cfgFull 10 msgA stIdle`. -/
def stFreshRes : St :=
  { initModel := some [("a", 1)], host := some [("a", 1), ("c", 7)],
    reentered := false, buffer := [], currentModel := [("c", 7)] }

/-- Result trace of `runDispatch progFresh cfgFull 10 msgA stIdle`. -/
def trFreshRes : List Event :=
  [Event.evMiddleware msgA, Event.evLogInfo msgA, Event.evLogDebug msgA,
   Event.evUpdateCall msgA, Event.evMerged [("c", 7)],
   Event.evLogModelUpdated [("a", 1), ("c", 7)],
   Event.evHostWrite [("a", 1), ("c", 7)]]

/-- An initialized state in the middle of a cycle (`reentered` set). -/
def stReentIdle : St :=
  { initModel := some [("a", 1)], host := some [("a", 1)],
    reentered := true, buffer := [], currentModel := [] }

/-- Result state of `runDispatch progSameInput cfgFull 5 msgA stIdle`. -/
def stSameInputRes : St :=
  { initModel := some [("a", 1)], host := some [("a", 1)],
    reentered := false, buffer := [], currentModel := [("a", 1)] }

/-- Result trace of `runDispatch progSameInput cfgFull 5 msgA stIdle`. -/
def trSameInputRes : List Event :=
  [Event.evMiddleware msgA, Event.evLogInfo msgA, Event.evLogDebug msgA,
   Event.evUpdateCall msgA, Event.evMerged [("a", 1)],
   Event.evLogModelUpdated [("a", 1)], Event.evHostWrite [("a", 1)]]

/-- Result trace of `stepMsg progSameInit cfgFull 5 msgA stReentIdle`. -/
def trStepInitRes : List Event :=
  [Event.evLogInfo msgA, Event.evLogDebug msgA, Event.evUpdateCall msgA]

/-- Result trace of `runDispatch progSameInit cfgFull 10 msgA stIdle`. -/
def trInitDispRes : List Event :=
  [Event.evMiddleware msgA, Event.evLogInfo msgA, Event.evLogDebug msgA,
   Event.evUpdateCall msgA]

/-- Result trace of `stepMsg progThrow cfgFull 5 msgA stReentIdle` (and of
`runLoop progThrow cfgFull 8 msgA false stReentIdle`). -/
def trThrowStepRes : List Event :=
  [Event.evLogInfo msgA, Event.evLogDebug msgA, Event.evUpdateCall msgA,
   Event.evLogError (ErrV.thrown 3)]

/-- Result trace of `stepMsg progMap cfgFull 5 msgUnknown stReentIdle`. -/
def trMapStepRes : List Event :=
  [Event.evLogInfo msgUnknown, Event.evLogDebug msgUnknown,
   Event.evUpdateCall msgUnknown, Event.evLogError ErrV.typeErrNotAFunction]

/-- Result state of `runExecCmd progFresh cfgFull 8 [effThrow, effPlain] stReentIdle`. -/
def stExecRes : St :=
  { initModel := some [("a", 1)], host := some [("a", 1)],
    reentered := true, buffer := [msgB], currentModel := [] }

/-- Result trace of `runExecCmd progFresh cfgFull 8 [effThrow, effPlain] stReentIdle`. -/
def trExecRes : List Event :=
  [Event.evEffect effThrow, Event.evMiddleware msgB, Event.evBuffered msgB,
   Event.evLogError (ErrV.thrown 8), Event.evEffect effPlain]

/-- The subscription used by `compSub`: one no-op command, with destructor. -/
def subW : Subscription := fun _ => ([effPlain], true)

/-- A component with a subscription returning one command and a destructor. -/
def compSub : Component :=
  ⟨progFresh, fun _ => ([("a", 1)], none), some subW⟩

/-- The mounted-phase operations used to evaluate the lifecycle: a
re-render, one dispatch, another re-render. -/
def opsW : List LifeOp := [LifeOp.rerender, LifeOp.dispatchOp msgA, LifeOp.rerender]

/-- Result trace of `runLifecycle compSub cfgFull 10 opsW`. -/
def trLifeRes : List LEvent :=
  [LEvent.core (Event.evHostWrite [("a", 1)]),
   LEvent.subscribe [("a", 1)],
   LEvent.core (Event.evEffect effPlain),
   LEvent.core (Event.evMiddleware msgA),
   LEvent.core (Event.evLogInfo msgA),
   LEvent.core (Event.evLogDebug msgA),
   LEvent.core (Event.evUpdateCall msgA),
   LEvent.core (Event.evMerged [("c", 7)]),
   LEvent.core (Event.evLogModelUpdated [("a", 1), ("c", 7)]),
   LEvent.core (Event.evHostWrite [("a", 1), ("c", 7)]),
   LEvent.cleanup]

/-- Result trace of `runDispatch progFresh cfgNoLog 10 msgA stIdle`
(the `cfgFull` run with the logger events absent). -/
def trFreshResNoLog : List Event :=
  [Event.evMiddleware msgA, Event.evUpdateCall msgA, Event.evMerged [("c", 7)],
   Event.evHostWrite [("a", 1), ("c", 7)]]

/-! ## Trace bookkeeping lemmas -/

theorem filterMap_logEvs {α : Type} (f : Event → Option α) (cfg : Cfg)
    (evs : List Event) (h : evs.filterMap f = []) :
    (logEvs cfg evs).filterMap f = [] := by
  cases hc : cfg.logger <;> simp [logEvs, hc, h]

theorem filterMap_mwEvs {α : Type} (f : Event → Option α) (cfg : Cfg) (m : Msg)
    (h : f (Event.evMiddleware m) = none) :
    (mwEvs cfg m).filterMap f = [] := by
  cases hc : cfg.middleware <;> simp [mwEvs, hc, h]

theorem filterMap_errEvs {α : Type} (f : Event → Option α) (cfg : Cfg) (e : ErrV)
    (h : f (Event.evLogError e) = none) :
    (errEvs cfg e).filterMap f = [] := by
  cases hc : cfg.logger <;> simp [errEvs, logEvs, hc, h]

theorem filterMap_effErrTrace {α : Type} (f : Event → Option α) (cfg : Cfg) (e : EffFn)
    (h : ∀ x, f (Event.evLogError x) = none) :
    (effErrTrace cfg e).filterMap f = [] := by
  cases ht : e.throws with
  | none => simp [effErrTrace, ht]
  | some ex =>
    rw [show effErrTrace cfg e = errEvs cfg ex by simp [effErrTrace, ht]]
    exact filterMap_errEvs f cfg ex (h ex)

theorem procs_enqEvs (cfg : Cfg) (m : Msg) : procs (enqEvs cfg m) = [] := by
  cases hc : cfg.middleware <;> simp [procs, enqEvs, mwEvs, hc]

theorem bufs_enqEvs (cfg : Cfg) (m : Msg) : bufs (enqEvs cfg m) = [m] := by
  cases hc : cfg.middleware <;> simp [bufs, enqEvs, mwEvs, hc]

theorem merges_enqEvs (cfg : Cfg) (m : Msg) : merges (enqEvs cfg m) = [] := by
  cases hc : cfg.middleware <;> simp [merges, enqEvs, mwEvs, hc]

theorem writes_enqEvs (cfg : Cfg) (m : Msg) : writes (enqEvs cfg m) = [] := by
  cases hc : cfg.middleware <;> simp [writes, enqEvs, mwEvs, hc]

theorem effRuns_enqEvs (cfg : Cfg) (m : Msg) : effRuns (enqEvs cfg m) = [] := by
  cases hc : cfg.middleware <;> simp [effRuns, enqEvs, mwEvs, hc]

theorem procs_effErrTrace (cfg : Cfg) (e : EffFn) : procs (effErrTrace cfg e) = [] :=
  filterMap_effErrTrace _ cfg e (fun _ => rfl)

theorem bufs_effErrTrace (cfg : Cfg) (e : EffFn) : bufs (effErrTrace cfg e) = [] :=
  filterMap_effErrTrace _ cfg e (fun _ => rfl)

theorem merges_effErrTrace (cfg : Cfg) (e : EffFn) : merges (effErrTrace cfg e) = [] :=
  filterMap_effErrTrace _ cfg e (fun _ => rfl)

theorem writes_effErrTrace (cfg : Cfg) (e : EffFn) : writes (effErrTrace cfg e) = [] :=
  filterMap_effErrTrace _ cfg e (fun _ => rfl)

theorem effRuns_effErrTrace (cfg : Cfg) (e : EffFn) : effRuns (effErrTrace cfg e) = [] :=
  filterMap_effErrTrace _ cfg e (fun _ => rfl)

theorem procs_enqTrace (cfg : Cfg) (msgs : List Msg) : procs (enqTrace cfg msgs) = [] := by
  induction msgs with
  | nil => rfl
  | cons m rest ih =>
    simp only [enqTrace, List.flatMap_cons] at *
    simp [procs, List.filterMap_append] at *
    exact ⟨by simpa [procs] using procs_enqEvs cfg m, ih⟩

theorem bufs_enqTrace (cfg : Cfg) (msgs : List Msg) : bufs (enqTrace cfg msgs) = msgs := by
  induction msgs with
  | nil => rfl
  | cons m rest ih =>
    simp only [enqTrace, List.flatMap_cons] at *
    simp only [bufs, List.filterMap_append] at *
    rw [show (enqEvs cfg m).filterMap _ = bufs (enqEvs cfg m) from rfl, bufs_enqEvs, ih]
    rfl

theorem merges_enqTrace (cfg : Cfg) (msgs : List Msg) : merges (enqTrace cfg msgs) = [] := by
  induction msgs with
  | nil => rfl
  | cons m rest ih =>
    simp only [enqTrace, List.flatMap_cons] at *
    simp only [merges, List.filterMap_append] at *
    rw [show (enqEvs cfg m).filterMap _ = merges (enqEvs cfg m) from rfl, merges_enqEvs, ih]
    rfl

theorem writes_enqTrace (cfg : Cfg) (msgs : List Msg) : writes (enqTrace cfg msgs) = [] := by
  induction msgs with
  | nil => rfl
  | cons m rest ih =>
    simp only [enqTrace, List.flatMap_cons] at *
    simp only [writes, List.filterMap_append] at *
    rw [show (enqEvs cfg m).filterMap _ = writes (enqEvs cfg m) from rfl, writes_enqEvs, ih]
    rfl

theorem effRuns_enqTrace (cfg : Cfg) (msgs : List Msg) : effRuns (enqTrace cfg msgs) = [] := by
  induction msgs with
  | nil => rfl
  | cons m rest ih =>
    simp only [enqTrace, List.flatMap_cons] at *
    simp only [effRuns, List.filterMap_append] at *
    rw [show (enqEvs cfg m).filterMap _ = effRuns (enqEvs cfg m) from rfl, effRuns_enqEvs, ih]
    rfl

theorem modelUpdatedLogs_enqEvs (cfg : Cfg) (m : Msg) :
    modelUpdatedLogs (enqEvs cfg m) = [] := by
  cases hc : cfg.middleware <;> simp [modelUpdatedLogs, enqEvs, mwEvs, hc]

theorem modelUpdatedLogs_enqTrace (cfg : Cfg) (msgs : List Msg) :
    modelUpdatedLogs (enqTrace cfg msgs) = [] := by
  induction msgs with
  | nil => rfl
  | cons m rest ih =>
    simp only [enqTrace, List.flatMap_cons] at *
    simp only [modelUpdatedLogs, List.filterMap_append] at *
    rw [show (enqEvs cfg m).filterMap _ = modelUpdatedLogs (enqEvs cfg m) from rfl,
      modelUpdatedLogs_enqEvs, ih]
    rfl

theorem modelUpdatedLogs_effErrTrace (cfg : Cfg) (e : EffFn) :
    modelUpdatedLogs (effErrTrace cfg e) = [] :=
  filterMap_effErrTrace _ cfg e (fun _ => rfl)

theorem modelUpdatedLogs_execTrace (cfg : Cfg) (effs : Cmd) :
    modelUpdatedLogs (execTrace cfg effs) = [] := by
  induction effs with
  | nil => rfl
  | cons e rest ih =>
    simp only [execTrace, List.flatMap_cons] at *
    simp only [modelUpdatedLogs, List.filterMap_cons, List.filterMap_append] at *
    rw [show (enqTrace cfg e.calls).filterMap _ = modelUpdatedLogs (enqTrace cfg e.calls) from rfl,
      show (effErrTrace cfg e).filterMap _ = modelUpdatedLogs (effErrTrace cfg e) from rfl,
      modelUpdatedLogs_enqTrace, modelUpdatedLogs_effErrTrace, ih]
    rfl

theorem procs_execTrace (cfg : Cfg) (effs : Cmd) : procs (execTrace cfg effs) = [] := by
  induction effs with
  | nil => rfl
  | cons e rest ih =>
    simp only [execTrace, List.flatMap_cons] at *
    simp only [procs, List.filterMap_cons, List.filterMap_append] at *
    rw [show (enqTrace cfg e.calls).filterMap _ = procs (enqTrace cfg e.calls) from rfl,
      show (effErrTrace cfg e).filterMap _ = procs (effErrTrace cfg e) from rfl,
      procs_enqTrace, procs_effErrTrace, ih]
    rfl

theorem bufs_execTrace (cfg : Cfg) (effs : Cmd) :
    bufs (execTrace cfg effs) = effs.flatMap (fun e => e.calls) := by
  induction effs with
  | nil => rfl
  | cons e rest ih =>
    simp only [execTrace, List.flatMap_cons] at *
    simp only [bufs, List.filterMap_cons, List.filterMap_append] at *
    rw [show (enqTrace cfg e.calls).filterMap _ = bufs (enqTrace cfg e.calls) from rfl,
      show (effErrTrace cfg e).filterMap _ = bufs (effErrTrace cfg e) from rfl,
      bufs_enqTrace, bufs_effErrTrace, ih]
    simp

theorem merges_execTrace (cfg : Cfg) (effs : Cmd) : merges (execTrace cfg effs) = [] := by
  induction effs with
  | nil => rfl
  | cons e rest ih =>
    simp only [execTrace, List.flatMap_cons] at *
    simp only [merges, List.filterMap_cons, List.filterMap_append] at *
    rw [show (enqTrace cfg e.calls).filterMap _ = merges (enqTrace cfg e.calls) from rfl,
      show (effErrTrace cfg e).filterMap _ = merges (effErrTrace cfg e) from rfl,
      merges_enqTrace, merges_effErrTrace, ih]
    rfl

theorem writes_execTrace (cfg : Cfg) (effs : Cmd) : writes (execTrace cfg effs) = [] := by
  induction effs with
  | nil => rfl
  | cons e rest ih =>
    simp only [execTrace, List.flatMap_cons] at *
    simp only [writes, List.filterMap_cons, List.filterMap_append] at *
    rw [show (enqTrace cfg e.calls).filterMap _ = writes (enqTrace cfg e.calls) from rfl,
      show (effErrTrace cfg e).filterMap _ = writes (effErrTrace cfg e) from rfl,
      writes_enqTrace, writes_effErrTrace, ih]
    rfl

theorem effRuns_execTrace (cfg : Cfg) (effs : Cmd) : effRuns (execTrace cfg effs) = effs := by
  induction effs with
  | nil => rfl
  | cons e rest ih =>
    simp only [execTrace, List.flatMap_cons] at *
    simp only [effRuns, List.filterMap_cons, List.filterMap_append] at *
    rw [show (enqTrace cfg e.calls).filterMap _ = effRuns (enqTrace cfg e.calls) from rfl,
      show (effErrTrace cfg e).filterMap _ = effRuns (effErrTrace cfg e) from rfl,
      effRuns_enqTrace, effRuns_effErrTrace, ih]
    rfl

/-! ## Reentrant dispatch: structural lemmas -/

/-- A `dispatch` call made while a cycle is running (model initialized,
`reentered` set): middleware runs, then the message is appended to the
FIFO buffer, and the call returns at once. -/
theorem runDispatch_reentrant (P : Prog) (cfg : Cfg) (fuel : Nat) (msg : Msg)
    (st : St) (im : PModel) (h1 : st.initModel = some im) (h2 : st.reentered = true) :
    runDispatch P cfg (fuel + 1) msg st
      = some ({ st with buffer := st.buffer ++ [msg] }, enqEvs cfg msg) := by
  simp [runDispatch, h1, h2, enqEvs]

/-- A sequence of `dispatch` calls made while a cycle is running appends
exactly those messages to the buffer, in order, and changes nothing else. -/
theorem runDispatchMany_reentrant (P : Prog) (cfg : Cfg) :
    ∀ (msgs : List Msg) (fuel : Nat) (st st' : St) (tr : List Event) (im : PModel),
      st.initModel = some im → st.reentered = true →
      runDispatchMany P cfg fuel msgs st = some (st', tr) →
      st' = { st with buffer := st.buffer ++ msgs } ∧ tr = enqTrace cfg msgs := by
  intro msgs
  induction msgs with
  | nil =>
    intro fuel st st' tr im h1 h2 hrun
    cases fuel with
    | zero => simp [runDispatchMany] at hrun
    | succ f =>
      simp [runDispatchMany] at hrun
      obtain ⟨hs, ht⟩ := hrun
      subst hs; subst ht
      exact ⟨by simp, rfl⟩
  | cons m rest ih =>
    intro fuel st st' tr im h1 h2 hrun
    cases fuel with
    | zero => simp [runDispatchMany] at hrun
    | succ f =>
      cases f with
      | zero => simp [runDispatchMany, runDispatch] at hrun
      | succ f' =>
        rw [runDispatchMany, runDispatch_reentrant P cfg f' m st im h1 h2] at hrun
        simp only [] at hrun
        cases hm : runDispatchMany P cfg (f' + 1) rest { st with buffer := st.buffer ++ [m] } with
        | none => rw [hm] at hrun; simp at hrun
        | some p =>
          obtain ⟨st2, tr2⟩ := p
          rw [hm] at hrun
          simp at hrun
          obtain ⟨hb, htr⟩ := ih (f' + 1) _ st2 tr2 im (by simp [h1]) (by simp [h2]) hm
          refine ⟨?_, ?_⟩
          · rw [← hrun.1, hb]; simp
          · rw [← hrun.2, htr, enqTrace]; simp [enqTrace]

/-- Lemma about `execCmd` run while a cycle is running: every effect is invoked, in
order; its dispatch calls only append to the buffer; a thrown error is
caught (and logged when a logger is present), and the remaining effects
still run.  The resulting trace is exactly `execTrace`. -/
theorem runExecCmd_reentrant (P : Prog) (cfg : Cfg) :
    ∀ (effs : Cmd) (fuel : Nat) (st st' : St) (tr : List Event) (im : PModel),
      st.initModel = some im → st.reentered = true →
      runExecCmd P cfg fuel effs st = some (st', tr) →
      st' = { st with buffer := st.buffer ++ effs.flatMap (fun e => e.calls) }
        ∧ tr = execTrace cfg effs := by
  intro effs
  induction effs with
  | nil =>
    intro fuel st st' tr im h1 h2 hrun
    cases fuel with
    | zero => simp [runExecCmd] at hrun
    | succ f =>
      simp [runExecCmd] at hrun
      obtain ⟨hs, ht⟩ := hrun
      subst hs; subst ht
      exact ⟨by simp, rfl⟩
  | cons e rest ih =>
    intro fuel st st' tr im h1 h2 hrun
    cases fuel with
    | zero => simp [runExecCmd] at hrun
    | succ f =>
      rw [runExecCmd] at hrun
      cases hd : runDispatchMany P cfg f e.calls st with
      | none => rw [hd] at hrun; simp at hrun
      | some p =>
        obtain ⟨st1, trD⟩ := p
        rw [hd] at hrun
        obtain ⟨hb1, htr1⟩ := runDispatchMany_reentrant P cfg e.calls f st st1 trD im h1 h2 hd
        simp only [] at hrun
        cases hr : runExecCmd P cfg f rest st1 with
        | none => rw [hr] at hrun; simp at hrun
        | some q =>
          obtain ⟨st2, trR⟩ := q
          rw [hr] at hrun
          simp at hrun
          obtain ⟨hb2, htr2⟩ := ih f st1 st2 trR im (by rw [hb1]; simpa using h1)
            (by rw [hb1]; simpa using h2) hr
          refine ⟨?_, ?_⟩
          · rw [← hrun.1, hb2, hb1]; simp
          · rw [← hrun.2, htr2, htr1, execTrace]
            simp [execTrace]

/-! ## Observation simp lemmas -/

@[simp] theorem procs_nil : procs [] = [] := rfl
@[simp] theorem bufs_nil : bufs [] = [] := rfl
@[simp] theorem merges_nil : merges [] = [] := rfl
@[simp] theorem writes_nil : writes [] = [] := rfl
@[simp] theorem effRuns_nil : effRuns [] = [] := rfl
@[simp] theorem modelUpdatedLogs_nil : modelUpdatedLogs [] = [] := rfl
@[simp] theorem semTrace_nil : semTrace [] = [] := rfl

@[simp] theorem procs_append (a b : List Event) : procs (a ++ b) = procs a ++ procs b := by
  simp [procs]
@[simp] theorem bufs_append (a b : List Event) : bufs (a ++ b) = bufs a ++ bufs b := by
  simp [bufs]
@[simp] theorem merges_append (a b : List Event) : merges (a ++ b) = merges a ++ merges b := by
  simp [merges]
@[simp] theorem writes_append (a b : List Event) : writes (a ++ b) = writes a ++ writes b := by
  simp [writes]
@[simp] theorem effRuns_append (a b : List Event) : effRuns (a ++ b) = effRuns a ++ effRuns b := by
  simp [effRuns]
@[simp] theorem modelUpdatedLogs_append (a b : List Event) :
    modelUpdatedLogs (a ++ b) = modelUpdatedLogs a ++ modelUpdatedLogs b := by
  simp [modelUpdatedLogs]
@[simp] theorem semTrace_append (a b : List Event) :
    semTrace (a ++ b) = semTrace a ++ semTrace b := by
  simp [semTrace]

@[simp] theorem procs_cons (e : Event) (tr : List Event) :
    procs (e :: tr)
      = (match e with | Event.evUpdateCall m => [m] | _ => []) ++ procs tr := by
  cases e <;> simp [procs]
@[simp] theorem bufs_cons (e : Event) (tr : List Event) :
    bufs (e :: tr)
      = (match e with | Event.evBuffered m => [m] | _ => []) ++ bufs tr := by
  cases e <;> simp [bufs]
@[simp] theorem merges_cons (e : Event) (tr : List Event) :
    merges (e :: tr)
      = (match e with | Event.evMerged p => [p] | _ => []) ++ merges tr := by
  cases e <;> simp [merges]
@[simp] theorem writes_cons (e : Event) (tr : List Event) :
    writes (e :: tr)
      = (match e with | Event.evHostWrite p => [p] | _ => []) ++ writes tr := by
  cases e <;> simp [writes]
@[simp] theorem effRuns_cons (e : Event) (tr : List Event) :
    effRuns (e :: tr)
      = (match e with | Event.evEffect f => [f] | _ => []) ++ effRuns tr := by
  cases e <;> simp [effRuns]
@[simp] theorem modelUpdatedLogs_cons (e : Event) (tr : List Event) :
    modelUpdatedLogs (e :: tr)
      = (match e with | Event.evLogModelUpdated p => [p] | _ => []) ++ modelUpdatedLogs tr := by
  cases e <;> simp [modelUpdatedLogs]
@[simp] theorem semTrace_cons (e : Event) (tr : List Event) :
    semTrace (e :: tr) = (if isLogEvent e then [] else [e]) ++ semTrace tr := by
  cases h : isLogEvent e <;> simp [semTrace, h]

@[simp] theorem procs_logEvs (cfg : Cfg) (evs : List Event) :
    procs (logEvs cfg evs) = if cfg.logger then procs evs else [] := by
  cases h : cfg.logger <;> simp [logEvs, h]
@[simp] theorem bufs_logEvs (cfg : Cfg) (evs : List Event) :
    bufs (logEvs cfg evs) = if cfg.logger then bufs evs else [] := by
  cases h : cfg.logger <;> simp [logEvs, h]
@[simp] theorem merges_logEvs (cfg : Cfg) (evs : List Event) :
    merges (logEvs cfg evs) = if cfg.logger then merges evs else [] := by
  cases h : cfg.logger <;> simp [logEvs, h]
@[simp] theorem writes_logEvs (cfg : Cfg) (evs : List Event) :
    writes (logEvs cfg evs) = if cfg.logger then writes evs else [] := by
  cases h : cfg.logger <;> simp [logEvs, h]
@[simp] theorem effRuns_logEvs (cfg : Cfg) (evs : List Event) :
    effRuns (logEvs cfg evs) = if cfg.logger then effRuns evs else [] := by
  cases h : cfg.logger <;> simp [logEvs, h]
@[simp] theorem modelUpdatedLogs_logEvs (cfg : Cfg) (evs : List Event) :
    modelUpdatedLogs (logEvs cfg evs) = if cfg.logger then modelUpdatedLogs evs else [] := by
  cases h : cfg.logger <;> simp [logEvs, h]

@[simp] theorem procs_mwEvs (cfg : Cfg) (m : Msg) : procs (mwEvs cfg m) = [] := by
  cases h : cfg.middleware <;> simp [mwEvs, h]
@[simp] theorem bufs_mwEvs (cfg : Cfg) (m : Msg) : bufs (mwEvs cfg m) = [] := by
  cases h : cfg.middleware <;> simp [mwEvs, h]
@[simp] theorem merges_mwEvs (cfg : Cfg) (m : Msg) : merges (mwEvs cfg m) = [] := by
  cases h : cfg.middleware <;> simp [mwEvs, h]
@[simp] theorem writes_mwEvs (cfg : Cfg) (m : Msg) : writes (mwEvs cfg m) = [] := by
  cases h : cfg.middleware <;> simp [mwEvs, h]
@[simp] theorem effRuns_mwEvs (cfg : Cfg) (m : Msg) : effRuns (mwEvs cfg m) = [] := by
  cases h : cfg.middleware <;> simp [mwEvs, h]
@[simp] theorem modelUpdatedLogs_mwEvs (cfg : Cfg) (m : Msg) :
    modelUpdatedLogs (mwEvs cfg m) = [] := by
  cases h : cfg.middleware <;> simp [mwEvs, h]
@[simp] theorem semTrace_mwEvs (cfg : Cfg) (m : Msg) : semTrace (mwEvs cfg m) = mwEvs cfg m := by
  cases h : cfg.middleware <;> simp [mwEvs, h, isLogEvent]

@[simp] theorem procs_errEvs (cfg : Cfg) (e : ErrV) : procs (errEvs cfg e) = [] := by
  simp [errEvs]
@[simp] theorem bufs_errEvs (cfg : Cfg) (e : ErrV) : bufs (errEvs cfg e) = [] := by
  simp [errEvs]
@[simp] theorem merges_errEvs (cfg : Cfg) (e : ErrV) : merges (errEvs cfg e) = [] := by
  simp [errEvs]
@[simp] theorem writes_errEvs (cfg : Cfg) (e : ErrV) : writes (errEvs cfg e) = [] := by
  simp [errEvs]
@[simp] theorem effRuns_errEvs (cfg : Cfg) (e : ErrV) : effRuns (errEvs cfg e) = [] := by
  simp [errEvs]
@[simp] theorem modelUpdatedLogs_errEvs (cfg : Cfg) (e : ErrV) :
    modelUpdatedLogs (errEvs cfg e) = [] := by
  simp [errEvs]
@[simp] theorem semTrace_errEvs (cfg : Cfg) (e : ErrV) : semTrace (errEvs cfg e) = [] := by
  cases h : cfg.logger <;> simp [errEvs, logEvs, h, isLogEvent]

@[simp] theorem semTrace_logEvs_logOnly (cfg : Cfg) (evs : List Event)
    (h : semTrace evs = []) : semTrace (logEvs cfg evs) = [] := by
  cases hc : cfg.logger <;> simp [logEvs, hc, h]

theorem stepMsg_char (P : Prog) (cfg : Cfg) (fuel : Nat) (msg : Msg)
    (st st' : St) (merged : Bool) (tr : List Event) (im : PModel)
    (h1 : st.initModel = some im) (h2 : st.reentered = true)
    (hrun : stepMsg P cfg fuel msg st = some (st', merged, tr)) :
    st'.initModel = some im ∧ st'.reentered = true ∧ st'.host = st.host
      ∧ st'.buffer = st.buffer ++ bufs tr
      ∧ procs tr = [msg] ∧ writes tr = []
      ∧ (merged = false → st'.currentModel = st.currentModel)
      ∧ (merges tr = [] ↔ merged = false)
      ∧ modelUpdatedLogs tr = [] := by
  cases fuel with
  | zero => simp [stepMsg] at hrun
  | succ f =>
    simp only [stepMsg] at hrun
    split at hrun
    · exact absurd hrun (by simp)
    · next st1 trD hd =>
        obtain ⟨hb1, htr1⟩ :=
          runDispatchMany_reentrant P cfg _ f st st1 trD im h1 h2 hd
        subst hb1; subst htr1
        split at hrun
        · -- update logic threw
          next e heq =>
            simp only [Option.some.injEq, Prod.mk.injEq] at hrun
            obtain ⟨hst, hm, htr⟩ := hrun
            subst hst; subst hm; subst htr
            refine ⟨by simpa using h1, by simpa using h2, rfl, ?_, ?_, ?_, fun _ => rfl, ?_, ?_⟩
            · simp [bufs_enqTrace]
            · simp [procs_enqTrace]
            · simp [writes_enqTrace]
            · simp [merges_enqTrace]
            · simp [modelUpdatedLogs_enqTrace]
        · -- update logic returned [partial, cmd?]
          next o heq =>
            cases hch : modelHasChanged o.ret (working st) with
            | false =>
              simp only [hch, Bool.false_eq_true, if_false, reduceIte] at hrun
              split at hrun
              · -- no command
                simp only [Option.some.injEq, Prod.mk.injEq] at hrun
                obtain ⟨hst, hm, htr⟩ := hrun
                subst hst; subst hm; subst htr
                refine ⟨by simpa using h1, by simpa using h2, rfl, ?_, ?_, ?_, fun _ => rfl, ?_, ?_⟩
                · simp [bufs_enqTrace]
                · simp [procs_enqTrace]
                · simp [writes_enqTrace]
                · simp [merges_enqTrace]
                · simp [modelUpdatedLogs_enqTrace]
              · -- command list c
                next c hc =>
                  split at hrun
                  · exact absurd hrun (by simp)
                  · next st3 trC hex =>
                    obtain ⟨hb3, htr3⟩ :=
                      runExecCmd_reentrant P cfg c f _ st3 trC im (by simpa using h1)
                        (by simpa using h2) hex
                    subst hb3; subst htr3
                    simp only [Option.some.injEq, Prod.mk.injEq] at hrun
                    obtain ⟨hst, hm, htr⟩ := hrun
                    subst hst; subst hm; subst htr
                    refine ⟨by simpa using h1, by simpa using h2, rfl, ?_, ?_, ?_,
                      fun _ => rfl, ?_, ?_⟩
                    · simp [bufs_enqTrace, bufs_execTrace]
                    · simp [procs_enqTrace, procs_execTrace]
                    · simp [writes_enqTrace, writes_execTrace]
                    · simp [merges_enqTrace, merges_execTrace]
                    · simp [modelUpdatedLogs_enqTrace, modelUpdatedLogs_execTrace]
            | true =>
              simp only [hch, if_true, reduceIte] at hrun
              split at hrun
              · -- no command
                simp only [Option.some.injEq, Prod.mk.injEq] at hrun
                obtain ⟨hst, hm, htr⟩ := hrun
                subst hst; subst htr
                refine ⟨by simpa using h1, by simpa using h2, rfl, ?_, ?_, ?_, ?_, ?_, ?_⟩
                · simp [bufs_enqTrace]
                · simp [procs_enqTrace]
                · simp [writes_enqTrace]
                · intro hmf; rw [← hm] at hmf; exact absurd hmf (by simp)
                · rw [← hm]; simp [merges_enqTrace]
                · simp [modelUpdatedLogs_enqTrace]
              · -- command list c
                next c hc =>
                  split at hrun
                  · exact absurd hrun (by simp)
                  · next st3 trC hex =>
                    obtain ⟨hb3, htr3⟩ :=
                      runExecCmd_reentrant P cfg c f _ st3 trC im (by simpa using h1)
                        (by simpa using h2) hex
                    subst hb3; subst htr3
                    simp only [Option.some.injEq, Prod.mk.injEq] at hrun
                    obtain ⟨hst, hm, htr⟩ := hrun
                    subst hst; subst htr
                    refine ⟨by simpa using h1, by simpa using h2, rfl, ?_, ?_, ?_, ?_, ?_, ?_⟩
                    · simp [bufs_enqTrace, bufs_execTrace]
                    · simp [procs_enqTrace, procs_execTrace]
                    · simp [writes_enqTrace, writes_execTrace]
                    · intro hmf; rw [← hm] at hmf; exact absurd hmf (by simp)
                    · rw [← hm]; simp [merges_enqTrace, merges_execTrace]
                    · simp [modelUpdatedLogs_enqTrace, modelUpdatedLogs_execTrace]

/-- The `while (nextMsg)` loop under reentrancy: it drains the buffer in
FIFO order, processing first the initial message, then every message of the
buffer — including those appended while it runs — exactly once each, in
order; it never writes the host cell; `modified` ends up set exactly when
some message merged a model change; and the accumulator is untouched when
no merge happened. -/
theorem runLoop_char (P : Prog) (cfg : Cfg) :
    ∀ (fuel : Nat) (msg : Msg) (mod : Bool) (st st' : St) (mod' : Bool)
      (tr : List Event) (im : PModel),
      st.initModel = some im → st.reentered = true →
      runLoop P cfg fuel msg mod st = some (st', mod', tr) →
      st'.initModel = some im ∧ st'.reentered = true ∧ st'.host = st.host
        ∧ st'.buffer = []
        ∧ procs tr = msg :: (st.buffer ++ bufs tr)
        ∧ writes tr = []
        ∧ mod' = (mod || !(merges tr).isEmpty)
        ∧ (merges tr = [] → st'.currentModel = st.currentModel)
        ∧ modelUpdatedLogs tr = [] := by
  intro fuel
  induction fuel with
  | zero => intro msg mod st st' mod' tr im h1 h2 hrun; simp [runLoop] at hrun
  | succ f ih =>
    intro msg mod st st' mod' tr im h1 h2 hrun
    simp only [runLoop] at hrun
    split at hrun
    · exact absurd hrun (by simp)
    · next st1 merged tr1 hst =>
      obtain ⟨c1, c2, c3, c4, c5, c6, c7, c8, c9⟩ :=
        stepMsg_char P cfg f msg st st1 merged tr1 im h1 h2 hst
      have hmb : merged = !(merges tr1).isEmpty := by
        cases merged with
        | false => simp [c8.mpr rfl]
        | true =>
          cases hme : merges tr1 with
          | nil => exact absurd (c8.mp hme) (by simp)
          | cons a l => simp
      split at hrun
      · next hb =>
        simp only [Option.some.injEq, Prod.mk.injEq] at hrun
        obtain ⟨hst', hm', htr'⟩ := hrun
        subst hst'; subst hm'; subst htr'
        obtain ⟨hbe, hbfe⟩ := List.append_eq_nil.mp (c4 ▸ hb)
        refine ⟨c1, c2, c3, hb, ?_, c6, by rw [hmb], ?_, c9⟩
        · rw [c5, hbe, hbfe]; rfl
        · intro hme; exact c7 (c8.mp hme ▸ rfl)
      · next m rest hb =>
        split at hrun
        · exact absurd hrun (by simp)
        · next st2 mod2 tr2 hrec =>
          simp only [Option.some.injEq, Prod.mk.injEq] at hrun
          obtain ⟨hst', hm', htr'⟩ := hrun
          subst hst'; subst hm'; subst htr'
          obtain ⟨d1, d2, d3, d4, d5, d6, d7, d8, d9⟩ :=
            ih m (mod || merged) { st1 with buffer := rest } st2 mod2 tr2 im
              (by simpa using c1) (by simpa using c2) hrec
          have hbuf : st.buffer ++ bufs tr1 = m :: rest := by rw [← c4, hb]
          refine ⟨d1, d2, by rw [d3]; exact c3, d4, ?_, ?_, ?_, ?_, by simp [c9, d9]⟩
          · simp only [procs_append, bufs_append, c5, d5]
            simp only [← List.append_assoc, hbuf]
            simp
          · simp [c6, d6]
          · rw [d7, hmb]
            cases hx : merges tr1 <;> simp [hx, Bool.or_assoc]
          · intro hme
            simp only [merges_append, List.append_eq_nil] at hme
            rw [d8 hme.2]
            simpa using c7 (c8.mp hme.1)

/-- A non-reentrant `dispatch` call on an initialized component: the whole
cycle.  The loop processes the dispatched message and then every buffered
message in FIFO order; when some update call merged a change the
accumulated model is committed exactly once, at the end, by merging the
accumulator onto the current value of the host cell; otherwise the host cell is
not written at all. -/
theorem runDispatch_cycle (P : Prog) (cfg : Cfg) (fuel : Nat) (msg : Msg)
    (st st' : St) (tr : List Event) (im : PModel)
    (h1 : st.initModel = some im) (h2 : st.reentered = false)
    (hrun : runDispatch P cfg fuel msg st = some (st', tr)) :
    st'.initModel = some im ∧ st'.reentered = false
      ∧ st'.buffer = []
      ∧ procs tr = msg :: (st.buffer ++ bufs tr)
      ∧ (cfg.middleware = true → tr.head? = some (Event.evMiddleware msg))
      ∧ (merges tr = [] →
          writes tr = [] ∧ modelUpdatedLogs tr = [] ∧ st'.host = st.host
            ∧ st'.currentModel = st.currentModel)
      ∧ (merges tr ≠ [] →
          writes tr = [mergeProps (st.host.getD []) st'.currentModel]
            ∧ st'.host = some (mergeProps (st.host.getD []) st'.currentModel)
            ∧ tr.getLast? = some (Event.evHostWrite
                (mergeProps (st.host.getD []) st'.currentModel))) := by
  cases fuel with
  | zero => simp [runDispatch] at hrun
  | succ f =>
    simp only [runDispatch, h1, h2, Bool.false_eq_true, if_false, reduceIte] at hrun
    split at hrun
    · exact absurd hrun (by simp)
    · next st1 modified trL hloop =>
      obtain ⟨c1, c2, c3, c4, c5, c6, c7, c8, c9⟩ :=
        runLoop_char P cfg f msg false _ st1 modified trL im (by simp) rfl hloop
      simp only [Bool.false_or] at c7
      cases hmod : modified with
      | false =>
        rw [hmod] at hrun
        simp only [Bool.false_eq_true, if_false, reduceIte, Option.some.injEq,
          Prod.mk.injEq] at hrun
        obtain ⟨hst', htr'⟩ := hrun
        subst hst'; subst htr'
        rw [hmod] at c7
        have hml : merges trL = [] := by
          cases hme : merges trL with
          | nil => rfl
          | cons a l => rw [hme] at c7; simp at c7
        refine ⟨by simpa using c1, rfl, by simpa using c4, ?_, ?_, ?_, ?_⟩
        · simpa using c5
        · intro hmw; simp [mwEvs, hmw]
        · intro _
          refine ⟨by simp [c6], by simp [c9], by simpa using c3, ?_⟩
          simpa using c8 hml
        · intro hne; exact absurd (by simpa using hml) hne
      | true =>
        rw [hmod] at hrun
        simp only [if_true, reduceIte, Option.some.injEq, Prod.mk.injEq] at hrun
        obtain ⟨hst', htr'⟩ := hrun
        rw [hmod] at c7
        have hml : merges trL ≠ [] := by
          intro hme; rw [hme] at c7; simp at c7
        have hhost : st1.host = st.host := by simpa using c3
        refine ⟨?_, ?_, ?_, ?_, ?_, ?_, ?_⟩
        · rw [← hst']; simpa using c1
        · rw [← hst']
        · rw [← hst']; simpa using c4
        · rw [← htr']; simpa using c5
        · intro hmw; rw [← htr']; simp [mwEvs, hmw]
        · intro hme
          rw [← htr'] at hme
          simp only [merges_append, merges_mwEvs, merges_logEvs, merges_cons,
            merges_nil, List.append_nil, List.nil_append] at hme
          exact absurd (by simpa using hme) hml
        · intro _
          rw [← htr', ← hst']
          simp only [writes_append, writes_mwEvs, writes_logEvs, writes_cons,
            writes_nil, c6, hhost]
          refine ⟨by simp, trivial, List.getLast?_concat _⟩

/-! ## Claim theorems -/

/-- C1: For every sequence of N messages dispatched while a dispatch cycle
is already running (reentrant calls from update handlers or command
effects), each of the N messages is appended to the internal FIFO buffer
(the `evBuffered` events, in issue order), and every one of them is
processed exactly once, in the order it was issued, before the outer
dispatch call returns (the update logic is invoked exactly for the outer
message followed by the buffered messages in that order); no dispatched
message is ever dropped (the buffer is empty when the cycle returns). -/
theorem claim1_reentrant_fifo_processed_once (P : Prog) (cfg : Cfg)
    (fuel : Nat) (msg : Msg) (st st' : St) (tr : List Event) (im : PModel)
    (h1 : st.initModel = some im) (h2 : st.reentered = false) (h3 : st.buffer = [])
    (hrun : runDispatch P cfg fuel msg st = some (st', tr)) :
    procs tr = msg :: bufs tr ∧ st'.buffer = [] := by
  obtain ⟨_, _, cbuf, cproc, _⟩ :=
    runDispatch_cycle P cfg fuel msg st st' tr im h1 h2 hrun
  rw [h3] at cproc
  exact ⟨by simpa using cproc, cbuf⟩

theorem claim1_witness :
    procs trReentRes = msgA :: bufs trReentRes ∧ stReentRes.buffer = [] :=
  claim1_reentrant_fifo_processed_once progReent cfgFull 10 msgA stIdle
    stReentRes trReentRes [("a", 1)] rfl rfl rfl (by decide)

/-- C2: For every dispatch cycle in which at least one update call modified
the model (a merge into the accumulator happened), the accumulated partial
updates are committed to the host reactive state exactly once, at the end
of the cycle, by merging the accumulator onto the latest committed state
(the `setModel` functional updater reads the value of the cell at commit time,
which the cycle itself never wrote before); if no update call modified the
model, no host-state write occurs in that cycle. -/
theorem claim2_commit_once_merging_latest (P : Prog) (cfg : Cfg)
    (fuel : Nat) (msg : Msg) (st st' : St) (tr : List Event) (im : PModel)
    (h1 : st.initModel = some im) (h2 : st.reentered = false)
    (hrun : runDispatch P cfg fuel msg st = some (st', tr)) :
    (merges tr ≠ [] →
      writes tr = [mergeProps (st.host.getD []) st'.currentModel]
        ∧ st'.host = some (mergeProps (st.host.getD []) st'.currentModel)
        ∧ tr.getLast? = some (Event.evHostWrite
            (mergeProps (st.host.getD []) st'.currentModel)))
    ∧ (merges tr = [] → writes tr = [] ∧ st'.host = st.host) := by
  obtain ⟨_, _, _, _, _, cnone, csome⟩ :=
    runDispatch_cycle P cfg fuel msg st st' tr im h1 h2 hrun
  exact ⟨csome, fun h => ⟨(cnone h).1, (cnone h).2.2.1⟩⟩

theorem claim2_witness :
    (writes trFreshRes = [mergeProps (stIdle.host.getD []) stFreshRes.currentModel]
      ∧ stFreshRes.host = some (mergeProps (stIdle.host.getD []) stFreshRes.currentModel)
      ∧ trFreshRes.getLast? = some (Event.evHostWrite
          (mergeProps (stIdle.host.getD []) stFreshRes.currentModel))) :=
  (claim2_commit_once_merging_latest progFresh cfgFull 10 msgA stIdle
    stFreshRes trFreshRes [("a", 1)] rfl rfl (by decide)).1 (by decide)

/-- C6: For every message, calling dispatch before the model has been
initialized is a silent no-op: it returns immediately (with the state
unchanged — nothing buffered, no host write) and an empty trace (no update
logic invoked), and it cannot throw (the interpreter totalises the plain
early return of the source). -/
theorem claim6_dispatch_before_init_noop (P : Prog) (cfg : Cfg)
    (fuel : Nat) (msg : Msg) (st : St) (h : st.initModel = none) :
    runDispatch P cfg (fuel + 1) msg st = some (st, []) := by
  simp [runDispatch, h]

theorem claim6_witness :
    runDispatch progFresh cfgFull (2 + 1) msgA stUninit = some (stUninit, []) :=
  claim6_dispatch_before_init_noop progFresh cfgFull 2 msgA stUninit rfl

/-- C7 as stated is false on the code: the middleware is configured
(`cfgFull.middleware = true`) and the message `msgA` is passed to dispatch,
but because the model is not yet initialized the call returns before the
middleware runs — the trace of the call is empty, containing no
`evMiddleware` event for the message (useElmish.ts lines 44-46 return
before line 50). -/
theorem claim7_counterexample :
    cfgFull.middleware = true
      ∧ runDispatch progFresh cfgFull 3 msgA stUninit = some (stUninit, [])
      ∧ Event.evMiddleware msgA ∉ ([] : List Event) :=
  ⟨rfl, by decide, by simp⟩

/-- C7 (amended: restricted to dispatch calls made after the model is
initialized — pre-initialization calls are silent no-ops that invoke
nothing, middleware included): when a dispatch-middleware hook is
configured, it is called synchronously with every such message, before the
message is queued or processed (the middleware event is the first event of
the call), and the message handed to the update logic or appended to the
buffer is the same message the middleware received. -/
theorem claim7_middleware_first_same_message (P : Prog) (cfg : Cfg)
    (fuel : Nat) (msg : Msg) (st st' : St) (tr : List Event) (im : PModel)
    (h1 : st.initModel = some im) (hmw : cfg.middleware = true)
    (hrun : runDispatch P cfg fuel msg st = some (st', tr)) :
    tr.head? = some (Event.evMiddleware msg)
      ∧ (st.reentered = true →
          st' = { st with buffer := st.buffer ++ [msg] }
            ∧ tr = [Event.evMiddleware msg, Event.evBuffered msg])
      ∧ (st.reentered = false → (procs tr).head? = some msg) := by
  cases fuel with
  | zero => simp [runDispatch] at hrun
  | succ f =>
    cases hre : st.reentered with
    | true =>
      rw [runDispatch_reentrant P cfg f msg st im h1 hre] at hrun
      simp only [Option.some.injEq, Prod.mk.injEq] at hrun
      obtain ⟨hst', htr'⟩ := hrun
      have he : enqEvs cfg msg = [Event.evMiddleware msg, Event.evBuffered msg] := by
        simp [enqEvs, mwEvs, hmw]
      refine ⟨?_, fun _ => ⟨by rw [← hst', hre], by rw [← htr', he]⟩, fun hc => ?_⟩
      · rw [← htr', he]; rfl
      · exact absurd hc (by simp)
    | false =>
      obtain ⟨_, _, _, cproc, chead, _⟩ :=
        runDispatch_cycle P cfg (f + 1) msg st st' tr im h1 hre hrun
      refine ⟨chead hmw, fun hc => ?_, fun _ => ?_⟩
      · exact absurd hc (by simp)
      · rw [cproc]; rfl

theorem claim7_witness :
    trFreshRes.head? = some (Event.evMiddleware msgA)
      ∧ (stIdle.reentered = true →
          stFreshRes = { stIdle with buffer := stIdle.buffer ++ [msgA] }
            ∧ trFreshRes = [Event.evMiddleware msgA, Event.evBuffered msgA])
      ∧ (stIdle.reentered = false → (procs trFreshRes).head? = some msgA) :=
  claim7_middleware_first_same_message progFresh cfgFull 10 msgA stIdle
    stFreshRes trFreshRes [("a", 1)] rfl rfl (by decide)

/-- The `merged` flag a loop iteration reports is exactly `modelHasChanged`
applied to the partial model the update logic returned. -/
theorem stepMsg_merged_eq (P : Prog) (cfg : Cfg) (fuel : Nat) (msg : Msg)
    (st st' : St) (merged : Bool) (tr : List Event)
    (d : List Msg) (ret : RetModel) (c : Option Cmd)
    (hcall : callUpdate P.update msg (working st) P.props = ⟨d, Except.ok ⟨ret, c⟩⟩)
    (hrun : stepMsg P cfg fuel msg st = some (st', merged, tr)) :
    merged = modelHasChanged ret (working st) := by
  cases fuel with
  | zero => simp [stepMsg] at hrun
  | succ f =>
    simp only [stepMsg, hcall] at hrun
    split at hrun
    · exact absurd hrun (by simp)
    · split at hrun
      · simp only [Option.some.injEq, Prod.mk.injEq] at hrun
        exact hrun.2.1.symm
      · split at hrun
        · exact absurd hrun (by simp)
        · simp only [Option.some.injEq, Prod.mk.injEq] at hrun
          exact hrun.2.1.symm

/-- The second conjunct of C3 is false on the code: the update logic returns the
very working-model object it was handed (referentially identical to the
current working model, with property `a`), yet the dispatch cycle merges it
and writes the host state.  `modelHasChanged` (useElmish.ts line 48)
compares against the closure variable `initializedModel`, and the working
model `{...initializedModel, ...currentModel}` is a fresh spread object,
never reference-equal to it. -/
theorem claim3_counterexample :
    callUpdate progSameInput.update msgA (working stIdle) progSameInput.props
        = ⟨[], Except.ok ⟨RetModel.sameAsInput, none⟩⟩
      ∧ working stIdle = [("a", 1)]
      ∧ runDispatch progSameInput cfgFull 5 msgA stIdle
          = some (stSameInputRes, trSameInputRes)
      ∧ writes trSameInputRes = [[("a", 1)]] :=
  ⟨rfl, by decide, by decide, by decide⟩

/-- C3 (amended: the reference-identity guard compares against the
initialized model object — the object `init` returned, committed at
initialization — not the working copy): a partial model returned by update
logic that is empty (no own properties) or referentially identical to the
initialized model never triggers a merge, and a cycle in which no merge
happened performs no host-state write and emits no "model updated" log. -/
theorem claim3_no_write_for_empty_or_init_identical (P : Prog) (cfg : Cfg) :
    (∀ (fuel : Nat) (msg : Msg) (st st' : St) (merged : Bool) (tr : List Event)
       (im : PModel) (d : List Msg) (ret : RetModel) (c : Option Cmd),
       st.initModel = some im → st.reentered = true →
       callUpdate P.update msg (working st) P.props = ⟨d, Except.ok ⟨ret, c⟩⟩ →
       (ret = RetModel.fresh [] ∨ ret = RetModel.sameAsInit) →
       stepMsg P cfg fuel msg st = some (st', merged, tr) →
       merged = false ∧ merges tr = [] ∧ st'.currentModel = st.currentModel
         ∧ writes tr = [])
    ∧ (∀ (fuel : Nat) (msg : Msg) (st st' : St) (tr : List Event) (im : PModel),
       st.initModel = some im → st.reentered = false →
       runDispatch P cfg fuel msg st = some (st', tr) →
       merges tr = [] →
       writes tr = [] ∧ modelUpdatedLogs tr = [] ∧ st'.host = st.host) := by
  constructor
  · intro fuel msg st st' merged tr im d ret c h1 h2 hcall hdisj hrun
    have hm := stepMsg_merged_eq P cfg fuel msg st st' merged tr d ret c hcall hrun
    have hch : modelHasChanged ret (working st) = false := by
      rcases hdisj with h | h <;> subst h <;> simp [modelHasChanged]
    obtain ⟨_, _, _, _, _, c6, c7, c8, _⟩ :=
      stepMsg_char P cfg fuel msg st st' merged tr im h1 h2 hrun
    have hmf : merged = false := by rw [hm, hch]
    exact ⟨hmf, c8.mpr hmf, c7 hmf, c6⟩
  · intro fuel msg st st' tr im h1 h2 hrun hme
    obtain ⟨_, _, _, _, _, cnone, _⟩ :=
      runDispatch_cycle P cfg fuel msg st st' tr im h1 h2 hrun
    obtain ⟨w, mu, hh, _⟩ := cnone hme
    exact ⟨w, mu, hh⟩

theorem claim3_witness :
    (false = false ∧ merges trStepInitRes = []
      ∧ stReentIdle.currentModel = stReentIdle.currentModel
      ∧ writes trStepInitRes = [])
    ∧ (writes trInitDispRes = [] ∧ modelUpdatedLogs trInitDispRes = []
      ∧ stIdle.host = stIdle.host) :=
  ⟨(claim3_no_write_for_empty_or_init_identical progSameInit cfgFull).1
      5 msgA stReentIdle stReentIdle false trStepInitRes [("a", 1)]
      [] RetModel.sameAsInit none rfl rfl rfl (Or.inr rfl) (by decide),
   (claim3_no_write_for_empty_or_init_identical progSameInit cfgFull).2
      10 msgA stIdle stIdle trInitDispRes [("a", 1)] rfl rfl (by decide) (by decide)⟩

/-- A loop iteration whose update call throws: the error is caught; the
iteration leaves the accumulator alone, buffers only the messages the
update dispatched before throwing, and its trace is exactly the logs, the
update invocation, those buffered dispatches, and the caught-error log. -/
theorem stepMsg_updateError (P : Prog) (cfg : Cfg) (fuel : Nat) (msg : Msg)
    (st st' : St) (merged : Bool) (tr : List Event) (im : PModel)
    (d : List Msg) (e : ErrV)
    (h1 : st.initModel = some im) (h2 : st.reentered = true)
    (hcall : callUpdate P.update msg (working st) P.props = ⟨d, Except.error e⟩)
    (hrun : stepMsg P cfg fuel msg st = some (st', merged, tr)) :
    merged = false
      ∧ st' = { st with buffer := st.buffer ++ d }
      ∧ tr = logEvs cfg [Event.evLogInfo msg, Event.evLogDebug msg]
          ++ [Event.evUpdateCall msg] ++ enqTrace cfg d ++ errEvs cfg e := by
  cases fuel with
  | zero => simp [stepMsg] at hrun
  | succ f =>
    simp only [stepMsg, hcall] at hrun
    split at hrun
    · exact absurd hrun (by simp)
    · next st1 trD hd =>
      obtain ⟨hb1, htr1⟩ := runDispatchMany_reentrant P cfg d f st st1 trD im h1 h2 hd
      subst hb1; subst htr1
      simp only [Option.some.injEq, Prod.mk.injEq] at hrun
      obtain ⟨hst, hm, htr⟩ := hrun
      exact ⟨hm.symm, hst.symm, htr.symm⟩

/-- C4: For every message M whose update call throws, the error is caught
(the run carries on and returns) and logged when a logger is configured; no
command from the result of M is executed (no effect invocation in the iteration
trace); no partial model from M is merged into the accumulator (the
accumulator, and hence the final committed model, excludes any effect of
M); and the dispatch loop continues with the next buffered message instead
of aborting (the loop still processes the initial message followed by every
buffered message, and drains the buffer). -/
theorem claim4_update_error_isolated (P : Prog) (cfg : Cfg) :
    (∀ (fuel : Nat) (msg : Msg) (st st' : St) (merged : Bool) (tr : List Event)
       (im : PModel) (d : List Msg) (e : ErrV),
       st.initModel = some im → st.reentered = true →
       callUpdate P.update msg (working st) P.props = ⟨d, Except.error e⟩ →
       stepMsg P cfg fuel msg st = some (st', merged, tr) →
       merged = false ∧ st'.currentModel = st.currentModel
         ∧ st'.buffer = st.buffer ++ d
         ∧ effRuns tr = [] ∧ merges tr = [] ∧ writes tr = []
         ∧ (cfg.logger = true → Event.evLogError e ∈ tr))
    ∧ (∀ (fuel : Nat) (msg : Msg) (mod : Bool) (st st2 : St) (mod2 : Bool)
       (trl : List Event) (im : PModel),
       st.initModel = some im → st.reentered = true →
       runLoop P cfg fuel msg mod st = some (st2, mod2, trl) →
       procs trl = msg :: (st.buffer ++ bufs trl) ∧ st2.buffer = []) := by
  constructor
  · intro fuel msg st st' merged tr im d e h1 h2 hcall hrun
    obtain ⟨hm, hst, htr⟩ :=
      stepMsg_updateError P cfg fuel msg st st' merged tr im d e h1 h2 hcall hrun
    subst hm; subst hst; subst htr
    refine ⟨rfl, rfl, by simp, ?_, ?_, ?_, ?_⟩
    · simp [effRuns_enqTrace]
    · simp [merges_enqTrace]
    · simp [writes_enqTrace]
    · intro hlog; simp [errEvs, logEvs, hlog]
  · intro fuel msg mod st st2 mod2 trl im h1 h2 hrun
    obtain ⟨_, _, _, c4, c5, _⟩ := runLoop_char P cfg fuel msg mod st st2 mod2 trl im h1 h2 hrun
    exact ⟨c5, c4⟩

theorem claim4_witness :
    (false = false ∧ stReentIdle.currentModel = stReentIdle.currentModel
      ∧ stReentIdle.buffer = stReentIdle.buffer ++ []
      ∧ effRuns trThrowStepRes = [] ∧ merges trThrowStepRes = []
      ∧ writes trThrowStepRes = []
      ∧ (cfgFull.logger = true → Event.evLogError (ErrV.thrown 3) ∈ trThrowStepRes))
    ∧ (procs trThrowStepRes = msgA :: (stReentIdle.buffer ++ bufs trThrowStepRes)
      ∧ stReentIdle.buffer = []) :=
  ⟨(claim4_update_error_isolated progThrow cfgFull).1 5 msgA stReentIdle stReentIdle
      false trThrowStepRes [("a", 1)] [] (ErrV.thrown 3) rfl rfl (by decide) (by decide),
   (claim4_update_error_isolated progThrow cfgFull).2 8 msgA false stReentIdle stReentIdle
      false trThrowStepRes [("a", 1)] rfl rfl (by decide)⟩

/-- C10: For every handler map and every message whose name has no entry in
the map, `callUpdateMap` throws (the looked-up handler is `undefined` and
is invoked, raising a `TypeError` — before any handler runs, so nothing is
dispatched); when such a message is processed inside a dispatch cycle, that
error is absorbed by the same catch as an update error: it is logged when a
logger is configured, the message produces no model change and no commands,
and the loop continues with the next buffered message rather than surfacing
the missing-handler condition to the caller. -/
theorem claim10_missing_handler_absorbed (cfg : Cfg) (um : UpdateMap) (msg : Msg)
    (hmiss : lookupHandler um msg.name = none) :
    (∀ (model : PModel) (props : Props),
       callUpdateMap um msg model props = ⟨[], Except.error ErrV.typeErrNotAFunction⟩)
    ∧ (∀ (P : Prog) (fuel : Nat) (st st' : St) (merged : Bool) (tr : List Event)
       (im : PModel),
       P.update = UpdateArg.map um →
       st.initModel = some im → st.reentered = true →
       stepMsg P cfg fuel msg st = some (st', merged, tr) →
       merged = false ∧ st'.currentModel = st.currentModel ∧ st'.buffer = st.buffer
         ∧ effRuns tr = [] ∧ merges tr = []
         ∧ (cfg.logger = true → Event.evLogError ErrV.typeErrNotAFunction ∈ tr))
    ∧ (∀ (P : Prog) (fuel : Nat) (mod : Bool) (st st2 : St) (mod2 : Bool)
       (trl : List Event) (im : PModel),
       P.update = UpdateArg.map um →
       st.initModel = some im → st.reentered = true →
       runLoop P cfg fuel msg mod st = some (st2, mod2, trl) →
       procs trl = msg :: (st.buffer ++ bufs trl) ∧ st2.buffer = []) := by
  have hmap : ∀ (model : PModel) (props : Props),
      callUpdateMap um msg model props = ⟨[], Except.error ErrV.typeErrNotAFunction⟩ := by
    intro model props
    simp [callUpdateMap, hmiss]
  refine ⟨hmap, ?_, ?_⟩
  · intro P fuel st st' merged tr im hup h1 h2 hrun
    have hcall : callUpdate P.update msg (working st) P.props
        = ⟨[], Except.error ErrV.typeErrNotAFunction⟩ := by
      rw [hup]; exact hmap _ _
    obtain ⟨hm, hst, htr⟩ :=
      stepMsg_updateError P cfg fuel msg st st' merged tr im []
        ErrV.typeErrNotAFunction h1 h2 hcall hrun
    subst hm; subst hst; subst htr
    refine ⟨rfl, rfl, by simp, ?_, ?_, ?_⟩
    · simp [effRuns_enqTrace, enqTrace]
    · simp [merges_enqTrace, enqTrace]
    · intro hlog; simp [errEvs, logEvs, hlog, enqTrace]
  · intro P fuel mod st st2 mod2 trl im _ h1 h2 hrun
    obtain ⟨_, _, _, c4, c5, _⟩ :=
      runLoop_char P cfg fuel msg mod st st2 mod2 trl im h1 h2 hrun
    exact ⟨c5, c4⟩

theorem claim10_witness :
    (callUpdateMap umKnown msgUnknown [("a", 1)] 0
        = ⟨[], Except.error ErrV.typeErrNotAFunction⟩)
    ∧ (false = false ∧ stReentIdle.currentModel = stReentIdle.currentModel
      ∧ stReentIdle.buffer = stReentIdle.buffer
      ∧ effRuns trMapStepRes = [] ∧ merges trMapStepRes = []
      ∧ (cfgFull.logger = true →
          Event.evLogError ErrV.typeErrNotAFunction ∈ trMapStepRes))
    ∧ (procs trMapStepRes = msgUnknown :: (stReentIdle.buffer ++ bufs trMapStepRes)
      ∧ stReentIdle.buffer = []) :=
  ⟨(claim10_missing_handler_absorbed cfgFull umKnown msgUnknown rfl).1 [("a", 1)] 0,
   (claim10_missing_handler_absorbed cfgFull umKnown msgUnknown rfl).2.1
      progMap 5 stReentIdle stReentIdle false trMapStepRes [("a", 1)] rfl rfl rfl (by decide),
   (claim10_missing_handler_absorbed cfgFull umKnown msgUnknown rfl).2.2
      progMap 8 false stReentIdle stReentIdle false trMapStepRes [("a", 1)] rfl rfl rfl
      (by decide)⟩

/-- C5: For every command list executed, each effect function is invoked
synchronously in list order.  Part one (any context): executing `e :: rest`
invokes `e` (its dispatch calls run, and an error it throws is caught —
logged via `effErrTrace` — never propagated), after which the remaining
effects `rest` still run, continuing from the state `e` left; the emitted
trace is the effect marker, the dispatch trace of `e`, its caught-error log, and
then the trace of `rest`.  Part two (while a dispatch cycle runs): the
trace of a command list is exactly `execTrace`, whose effect markers are
the whole list in order (`effRuns tr = effs`), so every effect — including
those after a throwing one — runs exactly once and the loop is not stopped
(the state change is only the buffered messages). -/
theorem claim5_effects_in_order_errors_isolated (P : Prog) (cfg : Cfg) :
    (∀ (fuel : Nat) (e : EffFn) (rest : Cmd) (st st1 st2 : St)
       (trD trR : List Event),
       runDispatchMany P cfg fuel e.calls st = some (st1, trD) →
       runExecCmd P cfg fuel rest st1 = some (st2, trR) →
       runExecCmd P cfg (fuel + 1) (e :: rest) st
         = some (st2, (Event.evEffect e :: (trD ++ effErrTrace cfg e)) ++ trR))
    ∧ (∀ (effs : Cmd) (fuel : Nat) (st st' : St) (tr : List Event) (im : PModel),
       st.initModel = some im → st.reentered = true →
       runExecCmd P cfg fuel effs st = some (st', tr) →
       tr = execTrace cfg effs ∧ effRuns tr = effs
         ∧ st' = { st with buffer := st.buffer ++ effs.flatMap (fun e => e.calls) }) := by
  constructor
  · intro fuel e rest st st1 st2 trD trR hd hr
    rw [runExecCmd, hd]
    dsimp only
    rw [hr]
  · intro effs fuel st st' tr im h1 h2 hrun
    obtain ⟨hb, htr⟩ := runExecCmd_reentrant P cfg effs fuel st st' tr im h1 h2 hrun
    exact ⟨htr, by rw [htr, effRuns_execTrace], hb⟩

theorem claim5_witness :
    (runExecCmd progFresh cfgFull (7 + 1) [effThrow, effPlain] stReentIdle
      = some (stExecRes,
          (Event.evEffect effThrow
              :: ([Event.evMiddleware msgB, Event.evBuffered msgB]
                  ++ effErrTrace cfgFull effThrow))
            ++ [Event.evEffect effPlain]))
    ∧ (trExecRes = execTrace cfgFull [effThrow, effPlain]
      ∧ effRuns trExecRes = [effThrow, effPlain]
      ∧ stExecRes = { stReentIdle with
          buffer := stReentIdle.buffer
            ++ [effThrow, effPlain].flatMap (fun e => e.calls) }) :=
  ⟨(claim5_effects_in_order_errors_isolated progFresh cfgFull).1 7 effThrow [effPlain]
      stReentIdle stExecRes stExecRes [Event.evMiddleware msgB, Event.evBuffered msgB]
      [Event.evEffect effPlain] (by decide) (by decide),
   (claim5_effects_in_order_errors_isolated progFresh cfgFull).2 [effThrow, effPlain]
      8 stReentIdle stExecRes trExecRes [("a", 1)] rfl rfl (by decide)⟩

/-! ## Lifecycle lemmas -/

theorem countSubscribe_map_core (l : List Event) :
    countSubscribe (l.map LEvent.core) = 0 := by
  induction l with
  | nil => rfl
  | cons e rest ih => simp [countSubscribe, List.countP_cons, ih]

theorem countCleanup_map_core (l : List Event) :
    countCleanup (l.map LEvent.core) = 0 := by
  induction l with
  | nil => rfl
  | cons e rest ih => simp [countCleanup, List.countP_cons, ih]

theorem countSubscribe_append (a b : List LEvent) :
    countSubscribe (a ++ b) = countSubscribe a + countSubscribe b := by
  simp [countSubscribe]

theorem countCleanup_append (a b : List LEvent) :
    countCleanup (a ++ b) = countCleanup a + countCleanup b := by
  simp [countCleanup]

theorem countSubscribe_nil : countSubscribe [] = 0 := rfl

theorem countCleanup_nil : countCleanup [] = 0 := rfl

theorem countSubscribe_cons (e : LEvent) (l : List LEvent) :
    countSubscribe (e :: l)
      = countSubscribe l + (match e with | LEvent.subscribe _ => 1 | _ => 0) := by
  cases e <;> simp [countSubscribe, List.countP_cons]

theorem countCleanup_cons (e : LEvent) (l : List LEvent) :
    countCleanup (e :: l)
      = countCleanup l + (match e with | LEvent.cleanup => 1 | _ => 0) := by
  cases e <;> simp [countCleanup, List.countP_cons]

/-- The model `initialRender` installs is the model `init(props)` returned. -/
theorem initialRender_model (C : Component) (cfg : Cfg) (fuel : Nat)
    (im : PModel) (st0 : St) (trI : List Event)
    (h : initialRender C cfg fuel = some (im, st0, trI)) :
    im = (C.init C.prog.props).1 := by
  simp only [initialRender] at h
  split at h
  · next heq =>
    simp only [Option.some.injEq, Prod.mk.injEq] at h
    rw [← h.1]
  · next c heq =>
    split at h
    · exact absurd h (by simp)
    · simp only [Option.some.injEq, Prod.mk.injEq] at h
      rw [← h.1]

/-- C8: The subscription function, when provided, is invoked exactly once
per component lifetime (`countSubscribe tr = 1`), after initialization,
with the initialized model; its returned commands are executed exactly once
— at the one place the trace decomposition exhibits, between mount and the
mounted-phase operations — regardless of how many times dispatch is later
called and how often the component re-renders (`ops` is arbitrary); it is
never re-run on subsequent renders or updates; and its optional cleanup is
run exactly once, at component teardown (the final trace event). -/
theorem claim8_subscription_once_cleanup_once (C : Component) (cfg : Cfg)
    (fuel : Nat) (ops : List LifeOp) (s : Subscription) (stF : St) (tr : List LEvent)
    (hs : C.subscription = some s)
    (hrun : runLifecycle C cfg fuel ops = some (stF, tr)) :
    countSubscribe tr = 1
      ∧ countCleanup tr = (if (s (C.init C.prog.props).1).2 then 1 else 0)
      ∧ ((s (C.init C.prog.props).1).2 = true → tr.getLast? = some LEvent.cleanup)
      ∧ LEvent.subscribe (C.init C.prog.props).1 ∈ tr
      ∧ (∀ (im : PModel) (st0 st1 : St) (trI trS trO : List Event),
          initialRender C cfg fuel = some (im, st0, trI) →
          runExecCmd C.prog cfg fuel (s im).1 st0 = some (st1, trS) →
          runOps C cfg fuel ops st1 = some (stF, trO) →
          im = (C.init C.prog.props).1
            ∧ tr = trI.map LEvent.core
                ++ LEvent.subscribe im :: trS.map LEvent.core
                ++ trO.map LEvent.core
                ++ (if (s im).2 then [LEvent.cleanup] else [])) := by
  simp only [runLifecycle] at hrun
  split at hrun
  · exact absurd hrun (by simp)
  · next im0 st0' trI0 hI0 =>
    rw [hs] at hrun
    simp only [] at hrun
    split at hrun
    · exact absurd hrun (by simp)
    · next st1' trS0 hS0 =>
      split at hrun
      · exact absurd hrun (by simp)
      · next stF0 trO0 hO0 =>
        simp only [Option.some.injEq, Prod.mk.injEq] at hrun
        obtain ⟨hstF, htr⟩ := hrun
        subst hstF
        have him : im0 = (C.init C.prog.props).1 :=
          initialRender_model C cfg fuel im0 st0' trI0 hI0
        subst him
        refine ⟨?_, ?_, ?_, ?_, ?_⟩
        · rw [← htr]
          cases hd : (s (C.init C.prog.props).1).2 <;>
            simp [hd, countSubscribe_append, countSubscribe_cons,
              countSubscribe_map_core, countSubscribe_nil]
        · rw [← htr]
          cases hd : (s (C.init C.prog.props).1).2 <;>
            simp [hd, countCleanup_append, countCleanup_cons,
              countCleanup_map_core, countCleanup_nil]
        · intro hd
          rw [← htr]
          simp only [hd, reduceIte]
          exact List.getLast?_concat _
        · rw [← htr]
          simp
        · intro im st0 st1 trI trS trO hI hS hO
          rw [hI0] at hI
          simp only [Option.some.injEq, Prod.mk.injEq] at hI
          obtain ⟨h1, h2, h3⟩ := hI
          subst h1; subst h2; subst h3
          rw [hS0] at hS
          simp only [Option.some.injEq, Prod.mk.injEq] at hS
          obtain ⟨h4, h5⟩ := hS
          subst h4; subst h5
          rw [hO0] at hO
          simp only [Option.some.injEq, Prod.mk.injEq] at hO
          obtain ⟨_, h6⟩ := hO
          subst h6
          exact ⟨rfl, htr.symm⟩

theorem claim8_witness :
    countSubscribe trLifeRes = 1
      ∧ countCleanup trLifeRes
          = (if (subW (compSub.init compSub.prog.props).1).2 then 1 else 0)
      ∧ ((subW (compSub.init compSub.prog.props).1).2 = true →
          trLifeRes.getLast? = some LEvent.cleanup)
      ∧ LEvent.subscribe (compSub.init compSub.prog.props).1 ∈ trLifeRes :=
  let h := claim8_subscription_once_cleanup_once compSub cfgFull 10 opsW subW
    stFreshRes trLifeRes rfl (by decide)
  ⟨h.1, h.2.1, h.2.2.1, h.2.2.2.1⟩

theorem semTrace_effErrTrace (cfg : Cfg) (e : EffFn) :
    semTrace (effErrTrace cfg e) = [] := by
  cases ht : e.throws <;> simp [effErrTrace, ht]

/-- The function `mwEvs` depends only on the middleware flag. -/
theorem mwEvs_mk (l mwb : Bool) (m : Msg) :
    mwEvs ⟨l, mwb⟩ m = if mwb then [Event.evMiddleware m] else [] := rfl

/-- Two dispatch results with the same behaviour projection are either both
fuel-exhausted or reach the same state with log-equivalent traces. -/
theorem map_projST_eq {a b : Option (St × List Event)}
    (h : a.map projST = b.map projST) :
    (a = none ∧ b = none)
      ∨ ∃ s ta tb, a = some (s, ta) ∧ b = some (s, tb) ∧ semTrace ta = semTrace tb := by
  cases a with
  | none =>
    cases b with
    | none => exact Or.inl ⟨rfl, rfl⟩
    | some p => simp [projST] at h
  | some p =>
    cases b with
    | none => simp [projST] at h
    | some q =>
      obtain ⟨s1, t1⟩ := p
      obtain ⟨s2, t2⟩ := q
      simp [projST] at h
      exact Or.inr ⟨s1, t1, t2, rfl, by rw [h.1], h.2⟩

/-- As `map_projST_eq`, for step/loop results. -/
theorem map_projSBT_eq {a b : Option (St × Bool × List Event)}
    (h : a.map projSBT = b.map projSBT) :
    (a = none ∧ b = none)
      ∨ ∃ s m ta tb, a = some (s, m, ta) ∧ b = some (s, m, tb)
          ∧ semTrace ta = semTrace tb := by
  cases a with
  | none =>
    cases b with
    | none => exact Or.inl ⟨rfl, rfl⟩
    | some p => simp [projSBT] at h
  | some p =>
    cases b with
    | none => simp [projSBT] at h
    | some q =>
      obtain ⟨s1, m1, t1⟩ := p
      obtain ⟨s2, m2, t2⟩ := q
      simp [projSBT] at h
      exact Or.inr ⟨s1, m1, t1, t2, rfl, by rw [h.1, h.2.1], h.2.2⟩

/-- Logger independence, for every run function of the interpreter: two
configurations that agree on the middleware flag but differ arbitrarily in
the logger flag produce the same states (and flags) and traces that agree
once logger events are filtered out. -/
theorem run_logger_independent (P : Prog) (mw la lb : Bool) :
    ∀ fuel : Nat,
      (∀ (msg : Msg) (st : St),
        (runDispatch P ⟨la, mw⟩ fuel msg st).map projST
          = (runDispatch P ⟨lb, mw⟩ fuel msg st).map projST)
      ∧ (∀ (msg : Msg) (st : St),
        (stepMsg P ⟨la, mw⟩ fuel msg st).map projSBT
          = (stepMsg P ⟨lb, mw⟩ fuel msg st).map projSBT)
      ∧ (∀ (msg : Msg) (mod : Bool) (st : St),
        (runLoop P ⟨la, mw⟩ fuel msg mod st).map projSBT
          = (runLoop P ⟨lb, mw⟩ fuel msg mod st).map projSBT)
      ∧ (∀ (msgs : List Msg) (st : St),
        (runDispatchMany P ⟨la, mw⟩ fuel msgs st).map projST
          = (runDispatchMany P ⟨lb, mw⟩ fuel msgs st).map projST)
      ∧ (∀ (effs : Cmd) (st : St),
        (runExecCmd P ⟨la, mw⟩ fuel effs st).map projST
          = (runExecCmd P ⟨lb, mw⟩ fuel effs st).map projST) := by
  intro fuel
  induction fuel with
  | zero =>
    refine ⟨?_, ?_, ?_, ?_, ?_⟩ <;> intros <;>
      simp [runDispatch, stepMsg, runLoop, runDispatchMany, runExecCmd]
  | succ f ih =>
    obtain ⟨ihD, ihS, ihL, ihM, ihE⟩ := ih
    refine ⟨?_, ?_, ?_, ?_, ?_⟩
    · -- runDispatch
      intro msg st
      simp only [runDispatch]
      cases hin : st.initModel with
      | none => rfl
      | some im =>
        cases hre : st.reentered with
        | true => simp [projST, mwEvs]
        | false =>
          simp only [Bool.false_eq_true, reduceIte]
          rcases map_projSBT_eq (ihL msg false { initModel := some im, host := st.host, reentered := true, buffer := st.buffer, currentModel := st.currentModel }) with
            ⟨hA, hB⟩ | ⟨s1, m1, ta, tb, hA, hB, hsem⟩
          · rw [hA, hB]
          · rw [hA, hB]
            dsimp only
            cases hm1 : m1 with
            | false =>
              simp only [Bool.false_eq_true, reduceIte]
              simp [projST, hsem, mwEvs_mk]
            | true =>
              simp only [reduceIte]
              simp [projST, hsem, mwEvs_mk, semTrace_logEvs_logOnly, isLogEvent]
    · -- stepMsg
      intro msg st
      simp only [stepMsg]
      rcases map_projST_eq
          (ihM (callUpdate P.update msg (working st) P.props).dispatched st) with
        ⟨hA, hB⟩ | ⟨s1, ta, tb, hA, hB, hsem⟩
      · rw [hA, hB]
      · rw [hA, hB]
        dsimp only
        cases hout : (callUpdate P.update msg (working st) P.props).out with
        | error e =>
          simp [hout, projSBT, hsem, semTrace_logEvs_logOnly, isLogEvent]
        | ok o =>
          cases hcmd : o.cmd with
          | none =>
            cases hch : modelHasChanged o.ret (working st) <;>
              simp [hcmd, hch, projSBT, hsem, semTrace_logEvs_logOnly, isLogEvent]
          | some c =>
            cases hch : modelHasChanged o.ret (working st) with
            | false =>
              simp only [hcmd, hch, Bool.false_eq_true, reduceIte]
              rcases map_projST_eq (ihE c s1) with
                ⟨hA2, hB2⟩ | ⟨s2, ta2, tb2, hA2, hB2, hsem2⟩
              · rw [hA2, hB2]
              · rw [hA2, hB2]
                simp [projSBT, hsem, hsem2, semTrace_logEvs_logOnly, isLogEvent]
            | true =>
              simp only [hcmd, hch, reduceIte]
              rcases map_projST_eq (ihE c { s1 with currentModel := mergeProps s1.currentModel (retProps o.ret (working st) (st.initModel.getD [])) }) with
                ⟨hA2, hB2⟩ | ⟨s2, ta2, tb2, hA2, hB2, hsem2⟩
              · rw [hA2, hB2]
              · rw [hA2, hB2]
                simp [projSBT, hsem, hsem2, semTrace_logEvs_logOnly, isLogEvent]
    · -- runLoop
      intro msg mod st
      simp only [runLoop]
      rcases map_projSBT_eq (ihS msg st) with
        ⟨hA, hB⟩ | ⟨s1, m1, ta, tb, hA, hB, hsem⟩
      · rw [hA, hB]
      · rw [hA, hB]
        dsimp only
        cases hbuf : s1.buffer with
        | nil => simp [projSBT, hsem]
        | cons m rest =>
          dsimp only
          rcases map_projSBT_eq (ihL m (mod || m1) { s1 with buffer := rest }) with
            ⟨hA2, hB2⟩ | ⟨s2, m2, ta2, tb2, hA2, hB2, hsem2⟩
          · rw [hA2, hB2]
          · rw [hA2, hB2]
            simp [projSBT, hsem, hsem2]
    · -- runDispatchMany
      intro msgs st
      cases msgs with
      | nil => simp [runDispatchMany]
      | cons m rest =>
        simp only [runDispatchMany]
        rcases map_projST_eq (ihD m st) with
          ⟨hA, hB⟩ | ⟨s1, ta, tb, hA, hB, hsem⟩
        · rw [hA, hB]
        · rw [hA, hB]
          dsimp only
          rcases map_projST_eq (ihM rest s1) with
            ⟨hA2, hB2⟩ | ⟨s2, ta2, tb2, hA2, hB2, hsem2⟩
          · rw [hA2, hB2]
          · rw [hA2, hB2]
            simp [projST, hsem, hsem2]
    · -- runExecCmd
      intro effs st
      cases effs with
      | nil => simp [runExecCmd]
      | cons e rest =>
        simp only [runExecCmd]
        rcases map_projST_eq (ihM e.calls st) with
          ⟨hA, hB⟩ | ⟨s1, ta, tb, hA, hB, hsem⟩
        · rw [hA, hB]
        · rw [hA, hB]
          dsimp only
          rcases map_projST_eq (ihE rest s1) with
            ⟨hA2, hB2⟩ | ⟨s2, ta2, tb2, hA2, hB2, hsem2⟩
          · rw [hA2, hB2]
          · rw [hA2, hB2]
            simp [projST, hsem, hsem2, semTrace_effErrTrace]

theorem procs_semTrace (tr : List Event) : procs (semTrace tr) = procs tr := by
  induction tr with
  | nil => rfl
  | cons e t ih => cases e <;> simp [isLogEvent, ih]

theorem bufs_semTrace (tr : List Event) : bufs (semTrace tr) = bufs tr := by
  induction tr with
  | nil => rfl
  | cons e t ih => cases e <;> simp [isLogEvent, ih]

theorem merges_semTrace (tr : List Event) : merges (semTrace tr) = merges tr := by
  induction tr with
  | nil => rfl
  | cons e t ih => cases e <;> simp [isLogEvent, ih]

theorem writes_semTrace (tr : List Event) : writes (semTrace tr) = writes tr := by
  induction tr with
  | nil => rfl
  | cons e t ih => cases e <;> simp [isLogEvent, ih]

theorem effRuns_semTrace (tr : List Event) : effRuns (semTrace tr) = effRuns tr := by
  induction tr with
  | nil => rfl
  | cons e t ih => cases e <;> simp [isLogEvent, ih]

/-- C9: For every message and state, running dispatch with the logging
hooks absent produces the same behaviour as running it with them present:
the two runs succeed or exhaust fuel together, reach the same final state
(in particular the same committed model, accumulator and buffer), and
their traces agree once logger calls are filtered out — hence the same
buffered-message order, the same update invocations, the same command
(effect) invocations, the same merges and the same host-state writes. -/
theorem claim9_logger_absence_changes_nothing (P : Prog) (mw : Bool) (fuel : Nat)
    (msg : Msg) (st : St) :
    (runDispatch P ⟨true, mw⟩ fuel msg st).map projST
        = (runDispatch P ⟨false, mw⟩ fuel msg st).map projST
      ∧ (∀ (st1 st2 : St) (tr1 tr2 : List Event),
          runDispatch P ⟨true, mw⟩ fuel msg st = some (st1, tr1) →
          runDispatch P ⟨false, mw⟩ fuel msg st = some (st2, tr2) →
          st1 = st2 ∧ bufs tr1 = bufs tr2 ∧ procs tr1 = procs tr2
            ∧ effRuns tr1 = effRuns tr2 ∧ merges tr1 = merges tr2
            ∧ writes tr1 = writes tr2) := by
  have h := (run_logger_independent P mw true false fuel).1 msg st
  refine ⟨h, ?_⟩
  intro st1 st2 tr1 tr2 h1 h2
  rw [h1, h2] at h
  simp [projST] at h
  obtain ⟨hs, ht⟩ := h
  subst hs
  refine ⟨rfl, ?_, ?_, ?_, ?_, ?_⟩
  · rw [← bufs_semTrace tr1, ← bufs_semTrace tr2, ht]
  · rw [← procs_semTrace tr1, ← procs_semTrace tr2, ht]
  · rw [← effRuns_semTrace tr1, ← effRuns_semTrace tr2, ht]
  · rw [← merges_semTrace tr1, ← merges_semTrace tr2, ht]
  · rw [← writes_semTrace tr1, ← writes_semTrace tr2, ht]

theorem claim9_witness :
    stFreshRes = stFreshRes ∧ bufs trFreshRes = bufs trFreshResNoLog
      ∧ procs trFreshRes = procs trFreshResNoLog
      ∧ effRuns trFreshRes = effRuns trFreshResNoLog
      ∧ merges trFreshRes = merges trFreshResNoLog
      ∧ writes trFreshRes = writes trFreshResNoLog :=
  (claim9_logger_absence_changes_nothing progFresh true 10 msgA stIdle).2
    stFreshRes stFreshRes trFreshRes trFreshResNoLog (by decide) (by decide)
